import Mathlib

/-!
Verification development for the ecom-scraper repository.

The TypeScript source is shallowly embedded: machine strings are `List Char`,
JavaScript values appearing in generated-parser output are a `JSVal` inductive,
the browser key-value store is an association list, and the external
collaborators (language model transport, page-context execution world,
navigation/extraction) are oracle parameters supplied to the embedded
functions.  Every embedded definition is translated from the source file it
names in its doc comment.
-/

/-! ## Character and string utilities (`List Char` model of JS strings) -/

/-- ASCII lowercasing of one character, as applied by `new URL` to hostnames
(code points 65-90 shift by 32). -/
def lowerChar (c : Char) : Char :=
  if 65 ≤ c.toNat ∧ c.toNat ≤ 90 then Char.ofNat (c.toNat + 32) else c

/-- The character class `\s` of JavaScript regular expressions, restricted to
the ASCII whitespace characters (the Unicode members are not modelled). -/
def jsWsB (c : Char) : Bool :=
  c = ' ' || c = '\t' || c = '\n' || c = '\r' || c = '\x0b' || c = '\x0c'

/-- The character class `[\\/:*?"<>|]` used by `normalizeUrlForStorage` and
title sanitization in `src/src/utils/parser-generator.ts`. -/
def badFileCharB (c : Char) : Bool :=
  c = '\\' || c = '/' || c = ':' || c = '*' || c = '?' || c = '"' || c = '<' ||
  c = '>' || c = '|'

/-- `.replace(/[\\/:*?"<>|]/g, '_')`. -/
def replaceBadChars (l : List Char) : List Char :=
  l.map (fun c => if badFileCharB c then '_' else c)

/-- Auxiliary for `collapseWs`: the flag records whether the previous
character was inside a whitespace run already replaced by `_`. -/
def collapseWsAux : Bool → List Char → List Char
  | _, [] => []
  | inRun, c :: cs =>
    if jsWsB c then (if inRun then [] else ['_']) ++ collapseWsAux true cs
    else c :: collapseWsAux false cs

/-- `.replace(/\s+/g, '_')`: each maximal whitespace run becomes one `_`. -/
def collapseWs (l : List Char) : List Char :=
  collapseWsAux false l

/-- The two sequential replaces applied by `normalizeUrlForStorage`. -/
def cleanFileChars (l : List Char) : List Char :=
  collapseWs (replaceBadChars l)

/-- `.replace(/\/$/, '')`: remove one trailing slash if present. -/
def stripSlash (l : List Char) : List Char :=
  if l.getLast? = some '/' then l.dropLast else l

/-- First index at or after which `pat` occurs in the remaining list
(auxiliary for `findSub`). -/
def findSubAux (pat : List Char) : List Char → Nat → Option Nat
  | [], i => if pat = [] then some i else none
  | l@(_ :: cs), i => if pat.isPrefixOf l then some i else findSubAux pat cs (i + 1)

/-- `String.prototype.indexOf` for a pattern string: index of the leftmost
occurrence of `pat` in `l`. -/
def findSub (pat l : List Char) : Option Nat :=
  findSubAux pat l 0

/-- Index of the first character at index `≥ s` satisfying `p`
(models `indexOf(char, fromIndex)`). -/
def findIdxFrom (p : Char → Bool) (l : List Char) (s : Nat) : Option Nat :=
  ((l.drop s).findIdx? p).map (· + s)

/-- Leftmost non-overlapping replacement of the (nonempty) pattern `pat` by
`rep`, i.e. `String.prototype.replace` with a global literal pattern;
`fuel` bounds the recursion and is instantiated with the input length. -/
def replaceAllFuel (pat rep : List Char) : Nat → List Char → List Char
  | 0, l => l
  | fuel + 1, l =>
    if pat ≠ [] ∧ pat.isPrefixOf l then rep ++ replaceAllFuel pat rep fuel (l.drop pat.length)
    else
      match l with
      | [] => []
      | c :: cs => c :: replaceAllFuel pat rep fuel cs

/-- `String.prototype.replace(/pat/g, rep)` for a literal pattern. -/
def replaceAll (pat rep l : List Char) : List Char :=
  replaceAllFuel pat rep l.length l

/-! ## URL model

`new URL(u)` is modelled for absolute `http:`/`https:` URLs: scheme prefix,
nonempty host (lowercased), path (`/`-normalized when empty), query (from the
first `?` up to `#`) and fragment.  Any other string fails to parse, matching
the `catch` branches of the source.  Port, credentials and percent-encoding
are not modelled. -/

inductive Scheme where
  | http
  | https
deriving DecidableEq, Repr

/-- The literal scheme-plus-separator characters, `"http://"` or `"https://"`. -/
def schemeChars : Scheme → List Char
  | .http => 'h' :: 't' :: 't' :: 'p' :: ':' :: '/' :: '/' :: []
  | .https => 'h' :: 't' :: 't' :: 'p' :: 's' :: ':' :: '/' :: '/' :: []

structure UrlRec where
  scheme : Scheme
  host : List Char
  path : List Char
  search : List Char
  hash : List Char
deriving DecidableEq, Repr

/-- Characters that end the host component. -/
def hostCharB (c : Char) : Bool :=
  c ≠ '/' && c ≠ '?' && c ≠ '#'

/-- Characters that may appear in the path component. -/
def pathCharB (c : Char) : Bool :=
  c ≠ '?' && c ≠ '#'

/-- Split off the scheme prefix of an absolute URL. -/
def splitScheme (l : List Char) : Option (Scheme × List Char) :=
  if (schemeChars .https).isPrefixOf l then some (.https, l.drop 8)
  else if (schemeChars .http).isPrefixOf l then some (.http, l.drop 7)
  else none

/-- Model of `new URL(u)`: `none` models the constructor throwing. -/
def parseURL (l : List Char) : Option UrlRec :=
  match splitScheme l with
  | none => none
  | some (sch, rest) =>
    let hostRaw := rest.takeWhile hostCharB
    if hostRaw = [] then none
    else
      let afterHost := rest.dropWhile hostCharB
      let pathRaw := afterHost.takeWhile pathCharB
      let afterPath := afterHost.dropWhile pathCharB
      some { scheme := sch
             host := hostRaw.map lowerChar
             path := if pathRaw = [] then ['/'] else pathRaw
             search := afterPath.takeWhile (fun c => c ≠ '#')
             hash := afterPath.dropWhile (fun c => c ≠ '#') }

/-- `urlObj.toString()` for the modelled components. -/
def urlToString (r : UrlRec) : List Char :=
  schemeChars r.scheme ++ r.host ++ r.path ++ r.search ++ r.hash

/-- `hostname.replace(/^www\./, '')`. -/
def dropWww (h : List Char) : List Char :=
  if ('w' :: 'w' :: 'w' :: '.' :: []).isPrefixOf h then h.drop 4 else h

/-- `normalizeUrlForStorage` from `src/src/utils/parser-generator.ts`
(lines 17-29): hostname without leading `www.` plus pathname, one trailing
slash removed, filesystem-unsafe characters and whitespace runs replaced by
`_`; on a URL-parse failure the raw string gets the two replaces. -/
def normalizeUrlForStorage (u : List Char) : List Char :=
  match parseURL u with
  | some r => cleanFileChars (stripSlash (dropWww r.host ++ r.path))
  | none => cleanFileChars u

/-! ### Query-parameter model for `normalizeUrlForComparison` -/

/-- Lexicographic comparison by code unit, the model of `localeCompare`
ordering used when sorting query parameters. -/
def lexLeChars : List Char → List Char → Bool
  | [], _ => true
  | _ :: _, [] => false
  | a :: as, b :: bs =>
    if a.toNat < b.toNat then true
    else if b.toNat < a.toNat then false
    else lexLeChars as bs

/-- Key order used when sorting query parameters; `localeCompare` is modelled
as code-unit order on the key strings. -/
def paramLe (p q : List Char × List Char) : Prop :=
  lexLeChars p.1 q.1 = true

instance : DecidableRel paramLe := fun p q =>
  inferInstanceAs (Decidable (lexLeChars p.1 q.1 = true))

instance : IsTotal (List Char × List Char) paramLe := ⟨by
  have h : ∀ a b : List Char, lexLeChars a b = true ∨ lexLeChars b a = true := by
    intro a
    induction a with
    | nil => intro b; exact Or.inl rfl
    | cons x xs ih =>
      intro b
      cases b with
      | nil => exact Or.inr rfl
      | cons y ys =>
        unfold lexLeChars
        by_cases h1 : x.toNat < y.toNat
        · left; rw [if_pos h1]
        · by_cases h2 : y.toNat < x.toNat
          · right; rw [if_pos h2]
          · rw [if_neg h1, if_neg h2, if_neg h2, if_neg h1]
            exact ih ys
  exact fun p q => h p.1 q.1⟩

instance : IsTrans (List Char × List Char) paramLe := ⟨by
  have h : ∀ a b c : List Char, lexLeChars a b = true → lexLeChars b c = true →
      lexLeChars a c = true := by
    intro a
    induction a with
    | nil => intro b c _ _; rfl
    | cons x xs ih =>
      intro b c hab hbc
      cases b with
      | nil => cases hab
      | cons y ys =>
        cases c with
        | nil => cases hbc
        | cons z zs =>
          unfold lexLeChars at hab hbc ⊢
          by_cases h1 : x.toNat < y.toNat
          · by_cases h2 : y.toNat < z.toNat
            · rw [if_pos (by omega)]
            · by_cases h3 : z.toNat < y.toNat
              · rw [if_neg h2, if_pos h3] at hbc; cases hbc
              · rw [if_pos (by omega)]
          · by_cases h4 : y.toNat < x.toNat
            · rw [if_neg h1, if_pos h4] at hab; cases hab
            · by_cases h2 : y.toNat < z.toNat
              · rw [if_pos (by omega)]
              · by_cases h3 : z.toNat < y.toNat
                · rw [if_neg h2, if_pos h3] at hbc; cases hbc
                · rw [if_neg h1, if_neg h4] at hab
                  rw [if_neg h2, if_neg h3] at hbc
                  rw [if_neg (by omega), if_neg (by omega)]
                  exact ih ys zs hab hbc
  exact fun p q r hp hq => h p.1 q.1 r.1 hp hq⟩

/-- The query body: the search string with its leading `?` removed. -/
def searchBody (search : List Char) : List Char :=
  if search.head? = some '?' then search.tail else search

/-- `urlObj.searchParams` as a list of key/value pairs: drop the leading `?`,
split on `&`, skip empty segments, split each segment at its first `=`
(a segment without `=` has the empty value). -/
def parseParams (search : List Char) : List (List Char × List Char) :=
  ((searchBody search).splitOn '&').filter (fun part => part ≠ []) |>.map fun part =>
    (part.takeWhile (fun c => c ≠ '='), (part.dropWhile (fun c => c ≠ '=')).drop 1)

/-- Serialization of appended search parameters back into a search string
(leading `?` when nonempty, `k=v` segments joined by `&`; percent-encoding is
not modelled). -/
def serializeParams (ps : List (List Char × List Char)) : List Char :=
  match ps with
  | [] => []
  | _ => '?' :: (['&'].intercalate (ps.map fun p => p.1 ++ '=' :: p.2))

/-- `Array.prototype.sort` with comparator `(a, b) => a[0].localeCompare(b[0])`:
a stable ascending sort by key, modelled by insertion sort. -/
def sortParams (ps : List (List Char × List Char)) : List (List Char × List Char) :=
  ps.insertionSort paramLe

/-- `normalizeUrlForComparison` from `src/unnamed/part_000` (lines 506-519):
parse, sort the query parameters by key, rebuild, and strip one trailing
slash; on parse failure just strip one trailing slash. -/
def normalizeUrlForComparison (u : List Char) : List Char :=
  match parseURL u with
  | some r =>
    stripSlash (urlToString { r with search := serializeParams (sortParams (parseParams r.search)) })
  | none => stripSlash u

/-- `isUrlPrefix` from `src/src/utils/parser-generator.ts` (lines 111-132),
renamed with an `Of` suffix: protocol and hostname must match and the saved
pathname (trailing slash removed) must be a segment-aligned prefix of the
current pathname; if either URL fails to parse, fall back to a raw
string-prefix test. -/
def isUrlPrefixOf (savedUrl currentUrl : List Char) : Bool :=
  match parseURL savedUrl, parseURL currentUrl with
  | some s, some c =>
    if s.scheme ≠ c.scheme ∨ s.host ≠ c.host then false
    else
      let savedPath := stripSlash s.path
      decide (c.path = savedPath) || (savedPath ++ ['/']).isPrefixOf c.path
  | _, _ => savedUrl.isPrefixOf currentUrl

/-! ## JavaScript value model

`JSVal` models the values that generated parser code can return and that
`JSON.parse` can produce.  Numbers are modelled as integers (fractional
literals are outside the model). -/

inductive JSVal where
  | null
  | undefined
  | bool (b : Bool)
  | num (n : Int)
  | str (s : List Char)
  | arr (xs : List JSVal)
  | obj (fields : List (List Char × JSVal))
deriving Repr

/-- JavaScript truthiness. -/
def truthy : JSVal → Bool
  | .null => false
  | .undefined => false
  | .bool b => b
  | .num n => n ≠ 0
  | .str s => s ≠ []
  | .arr _ => true
  | .obj _ => true

/-- Property access `v.name`: on an object the last binding of the key wins
(object-literal semantics), on anything else the result is `undefined`. -/
def jLookup (v : JSVal) (name : List Char) : JSVal :=
  match v with
  | .obj fields =>
    match fields.reverse.find? (fun f => f.1 = name) with
    | some f => f.2
    | none => .undefined
  | _ => .undefined

/-- `product && typeof product === 'object'`: `typeof` is `'object'` for
objects, arrays and `null`, and the `&&` guard drops falsy values
(in particular `null`). -/
def isObjectLike : JSVal → Bool
  | .obj _ => true
  | .arr _ => true
  | _ => false

structure VResult where
  isValid : Bool
  error : Option (List Char)
deriving DecidableEq, Repr

/-- `validateExtractedProducts` from `src/src/utils/parser-generator.ts`
(lines 168-194). -/
def validateExtractedProducts (products : JSVal) : VResult :=
  match products with
  | .arr [] =>
    ⟨false, some ("The parser returned an empty array. No products were extracted.".toList)⟩
  | .arr xs =>
      let hasValidProduct := xs.any fun p =>
        isObjectLike p &&
          (truthy (jLookup p "name".toList) || truthy (jLookup p "priceRaw".toList) ||
            truthy (jLookup p "priceNormalized".toList))
      if hasValidProduct then ⟨true, none⟩
      else
        ⟨false, some ("The parser returned products but they lack essential fields (name, priceRaw, or priceNormalized)".toList)⟩
  | _ => ⟨false, some ("The parser did not return an array".toList)⟩

/-! ## JSON parser model

A fuel-indexed recursive-descent model of `JSON.parse`.  Strict JSON rejects
raw control characters inside string literals, which is exactly what the
`sanitizeJsonString` repair step in the source works around. -/

/-- JSON whitespace (`space`, `\t`, `\n`, `\r`). -/
def jsonWsB (c : Char) : Bool :=
  c = ' ' || c = '\t' || c = '\n' || c = '\r'

def hexVal (c : Char) : Option Nat :=
  if '0' ≤ c ∧ c ≤ '9' then some (c.toNat - '0'.toNat)
  else if 'a' ≤ c ∧ c ≤ 'f' then some (c.toNat - 'a'.toNat + 10)
  else if 'A' ≤ c ∧ c ≤ 'F' then some (c.toNat - 'A'.toNat + 10)
  else none

/-- Body of a JSON string literal after the opening quote; returns the decoded
characters and the input remaining after the closing quote.  Raw characters
below `0x20` are rejected, as in strict `JSON.parse`. -/
def jsonStringBody : List Char → Option (List Char × List Char)
  | [] => none
  | '"' :: rest => some ([], rest)
  | '\\' :: e :: rest =>
    match e with
    | '"' => (jsonStringBody rest).map fun r => ('"' :: r.1, r.2)
    | '\\' => (jsonStringBody rest).map fun r => ('\\' :: r.1, r.2)
    | '/' => (jsonStringBody rest).map fun r => ('/' :: r.1, r.2)
    | 'b' => (jsonStringBody rest).map fun r => ('\x08' :: r.1, r.2)
    | 'f' => (jsonStringBody rest).map fun r => ('\x0c' :: r.1, r.2)
    | 'n' => (jsonStringBody rest).map fun r => ('\n' :: r.1, r.2)
    | 'r' => (jsonStringBody rest).map fun r => ('\r' :: r.1, r.2)
    | 't' => (jsonStringBody rest).map fun r => ('\t' :: r.1, r.2)
    | 'u' =>
      match rest with
      | h1 :: h2 :: h3 :: h4 :: rest2 =>
        match hexVal h1, hexVal h2, hexVal h3, hexVal h4 with
        | some a, some b, some c, some d =>
          (jsonStringBody rest2).map fun r =>
            (Char.ofNat (((a * 16 + b) * 16 + c) * 16 + d) :: r.1, r.2)
        | _, _, _, _ => none
      | _ => none
    | _ => none
  | c :: rest =>
    if c.toNat < 0x20 then none
    else (jsonStringBody rest).map fun r => (c :: r.1, r.2)

/-- Digits of a JSON integer literal. -/
def jsonDigits : List Char → Option (Nat × List Char)
  | l =>
    let ds := l.takeWhile (fun c => '0' ≤ c ∧ c ≤ '9')
    if ds = [] then none
    else some (ds.foldl (fun acc c => acc * 10 + (c.toNat - '0'.toNat)) 0, l.drop ds.length)

/-- A JSON number literal, restricted to integers: a following `.`, `e` or `E`
makes the parse fail (model limitation, stated in the module header). -/
def jsonNumber (l : List Char) : Option (Int × List Char) :=
  let (neg, l2) := match l with
    | '-' :: rest => (true, rest)
    | _ => (false, l)
  match jsonDigits l2 with
  | none => none
  | some (n, rest) =>
    match rest with
    | '.' :: _ => none
    | 'e' :: _ => none
    | 'E' :: _ => none
    | _ => some (if neg then -(n : Int) else (n : Int), rest)

mutual

/-- One JSON value; consumes leading whitespace. -/
def jsonValue : Nat → List Char → Option (JSVal × List Char)
  | 0, _ => none
  | fuel + 1, l =>
    match l.dropWhile jsonWsB with
    | '{' :: rest => jsonMembers fuel rest true
    | '[' :: rest => jsonElements fuel rest true
    | '"' :: rest => (jsonStringBody rest).map fun r => (.str r.1, r.2)
    | 't' :: 'r' :: 'u' :: 'e' :: rest => some (.bool true, rest)
    | 'f' :: 'a' :: 'l' :: 's' :: 'e' :: rest => some (.bool false, rest)
    | 'n' :: 'u' :: 'l' :: 'l' :: rest => some (.null, rest)
    | other => (jsonNumber other).map fun r => (.num r.1, r.2)

/-- Members of an object after `{` (or after a `,`); `first` is true before
the first member so that `}` may close an empty object. -/
def jsonMembers : Nat → List Char → Bool → Option (JSVal × List Char)
  | 0, _, _ => none
  | fuel + 1, l, first =>
    match l.dropWhile jsonWsB with
    | '}' :: rest => if first then some (.obj [], rest) else none
    | '"' :: rest =>
      match jsonStringBody rest with
      | none => none
      | some (key, rest2) =>
        match rest2.dropWhile jsonWsB with
        | ':' :: rest3 =>
          match jsonValue fuel rest3 with
          | none => none
          | some (v, rest4) =>
            match rest4.dropWhile jsonWsB with
            | ',' :: rest5 =>
              match jsonMembers fuel rest5 false with
              | some (.obj fs, rest6) => some (.obj ((key, v) :: fs), rest6)
              | _ => none
            | '}' :: rest5 => some (.obj [(key, v)], rest5)
            | _ => none
        | _ => none
    | _ => none

/-- Elements of an array after `[` (or after a `,`). -/
def jsonElements : Nat → List Char → Bool → Option (JSVal × List Char)
  | 0, _, _ => none
  | fuel + 1, l, first =>
    match l.dropWhile jsonWsB with
    | ']' :: rest => if first then some (.arr [], rest) else none
    | _ =>
      match jsonValue fuel l with
      | none => none
      | some (v, rest) =>
        match rest.dropWhile jsonWsB with
        | ',' :: rest2 =>
          match jsonElements fuel rest2 false with
          | some (.arr vs, rest3) => some (.arr (v :: vs), rest3)
          | _ => none
        | ']' :: rest2 => some (.arr [v], rest2)
        | _ => none

end

/-- `JSON.parse`: the whole input must be one value with only trailing
whitespace; `none` models the exception. -/
def jsonParseTop (l : List Char) : Option JSVal :=
  match jsonValue (l.length + 1) l with
  | some (v, rest) => if rest.dropWhile jsonWsB = [] then some v else none
  | none => none

/-! ## `sanitizeJsonString` (parser-generator.ts lines 36-103) -/

/-- Number of consecutive backslashes immediately before index `j`. -/
def backslashRunBefore (l : List Char) (j : Nat) : Nat :=
  ((l.take j).reverse.takeWhile (fun c => c = '\\')).length

/-- The closing-quote scan of `sanitizeJsonString`: find the next `"` at or
after `pos`; if it is preceded by an even number of backslashes it is the
closing quote, otherwise continue after it. -/
def findClosingQuote (l : List Char) : Nat → Nat → Option Nat
  | 0, _ => none
  | fuel + 1, pos =>
    match findIdxFrom (fun c => c = '"') l pos with
    | none => none
    | some j =>
      if backslashRunBefore l j % 2 = 0 then some j
      else findClosingQuote l fuel (j + 1)

def hexDigitChar (n : Nat) : Char :=
  if n < 10 then Char.ofNat ('0'.toNat + n) else Char.ofNat ('a'.toNat + n - 10)

/-- `code.toString(16).padStart(4, '0')` for the control characters hit by the
catch-all class (all below `0x20`, hence two leading zeros). -/
def toHex4 (n : Nat) : List Char :=
  [hexDigitChar (n / 4096 % 16), hexDigitChar (n / 256 % 16),
   hexDigitChar (n / 16 % 16), hexDigitChar (n % 16)]

/-- One character under the escaping chain of `sanitizeJsonString`.  The
source applies sequential global replaces (backslash first, then `\n`, `\r`,
`\t`, `\f`, `\v`, then a catch-all for other characters below `0x20`); since
the later replaces never match characters produced by the earlier ones, the
chain equals this single pass. -/
def escapeCodeChar (c : Char) : List Char :=
  if c = '\\' then ['\\', '\\']
  else if c = '\n' then ['\\', 'n']
  else if c = '\r' then ['\\', 'r']
  else if c = '\t' then ['\\', 't']
  else if c = '\x0c' then ['\\', 'f']
  else if c = '\x0b' then ['\\', 'v']
  else if c.toNat < 0x20 then '\\' :: 'u' :: toHex4 c.toNat
  else [c]

def codeTok : List Char := '"' :: 'c' :: 'o' :: 'd' :: 'e' :: '"' :: []

def explTok : List Char :=
  '"' :: 'e' :: 'x' :: 'p' :: 'l' :: 'a' :: 'n' :: 'a' :: 't' :: 'i' :: 'o' :: 'n' :: '"' :: []

/-- `sanitizeJsonString` from `src/src/utils/parser-generator.ts`: locate the
`"code"` field, its colon, its opening quote and its true closing quote
(respecting backslash escapes), then escape every control character in that
span only. -/
def sanitizeJsonString (l : List Char) : List Char :=
  match findSub codeTok l with
  | none => l
  | some codeFieldStart =>
    match findIdxFrom (fun c => c = ':') l codeFieldStart with
    | none => l
    | some colonIndex =>
      match findIdxFrom (fun c => c = '"') l colonIndex with
      | none => l
      | some quoteStart =>
        match findClosingQuote l (l.length + 1) (quoteStart + 1) with
        | none => l
        | some quoteEnd =>
          let codeContent := (l.take quoteEnd).drop (quoteStart + 1)
          l.take (quoteStart + 1) ++ codeContent.flatMap escapeCodeChar ++ l.drop quoteEnd

/-! ## Regular-expression models used by `parseLLMResponse`

Each JS regex of the source is modelled by an executable scan with the same
match semantics: leftmost starting position, greedy `[\s\S]*` (maximal end
index), lazy `[\s\S]*?` (minimal end index). -/

def btChar : Char := Char.ofNat 96

def tripleBT : List Char := [btChar, btChar, btChar]

/-- End-index test for the greedy capture of
`/(?:json)?\s*(\{[\s\S]*"explanation"[\s\S]*"code"[\s\S]*\})\s*/` relative to
a candidate text `t` beginning with the opening brace: index `r` must hold
`}`, the two tokens must occur in order before it, and only whitespace may
separate it from a closing triple backtick. -/
def fencedCheckEnd (t : List Char) (r : Nat) : Bool :=
  (t.get? r = some '}') &&
  (match findSub explTok (t.take r) with
   | some p => (findSub codeTok ((t.take r).drop (p + 13))).isSome
   | none => false) &&
  tripleBT.isPrefixOf ((t.drop (r + 1)).dropWhile jsWsB)

/-- Attempt the fenced-block regex at one starting position. -/
def fencedAt (s : List Char) : Option (List Char) :=
  if tripleBT.isPrefixOf s then
    let afterBT := s.drop 3
    let afterJson := if ('j' :: 's' :: 'o' :: 'n' :: []).isPrefixOf afterBT then afterBT.drop 4 else afterBT
    let t := afterJson.dropWhile jsWsB
    match t with
    | '{' :: _ =>
      match (List.range t.length).reverse.find? (fencedCheckEnd t) with
      | some r => some (t.take (r + 1))
      | none => none
    | _ => none
  else none

/-- The markdown code-block regex
`/```(?:json)?\s*(\{[\s\S]*"explanation"[\s\S]*"code"[\s\S]*\})\s*```/`:
returns the captured JSON candidate. -/
def fencedMatch : List Char → Option (List Char)
  | [] => none
  | s@(_ :: cs) =>
    match fencedAt s with
    | some j => some j
    | none => fencedMatch cs

/-- End-index test for the greedy bare-object regex. -/
def bareCheckEnd (s : List Char) (r : Nat) : Bool :=
  (s.get? r = some '}') &&
  (match findSub explTok (s.take r) with
   | some p => (findSub codeTok ((s.take r).drop (p + 13))).isSome
   | none => false)

/-- Attempt the bare-object regex at one starting position. -/
def bareAt (s : List Char) : Option (List Char) :=
  match s with
  | '{' :: _ =>
    match (List.range s.length).reverse.find? (bareCheckEnd s) with
    | some r => some (s.take (r + 1))
    | none => none
  | _ => none

/-- The bare-object regex `/\{[\s\S]*"explanation"[\s\S]*"code"[\s\S]*\}/`. -/
def bareObjectMatch : List Char → Option (List Char)
  | [] => none
  | s@(_ :: cs) =>
    match bareAt s with
    | some j => some j
    | none => bareObjectMatch cs

/-- The lazy capture `([\s\S]*?)` of the field-extraction regexes: stop at the
first `"` that is followed by optional whitespace and `,` or `}`, otherwise
the quote is consumed into the capture. -/
def codeCaptureScan : List Char → Option (List Char)
  | [] => none
  | '"' :: rest =>
    if (match rest.dropWhile jsWsB with
        | ',' :: _ => true
        | '}' :: _ => true
        | _ => false) then
      some []
    else (codeCaptureScan rest).map fun cap => '"' :: cap
  | c :: rest => (codeCaptureScan rest).map fun cap => c :: cap

/-- Attempt `/TOK\s*:\s*"([\s\S]*?)"\s*[,\}]/` at one starting position. -/
def fieldLazyAt (tok : List Char) (s : List Char) : Option (List Char) :=
  if tok.isPrefixOf s then
    match (s.drop tok.length).dropWhile jsWsB with
    | ':' :: r2 =>
      match r2.dropWhile jsWsB with
      | '"' :: r3 => codeCaptureScan r3
      | _ => none
    | _ => none
  else none

/-- The manual field-extraction regexes of `parseLLMResponse`
(`tok` is `"code"` or `"explanation"`). -/
def fieldLazyMatch (tok : List Char) : List Char → Option (List Char)
  | [] => none
  | s@(_ :: cs) =>
    match fieldLazyAt tok s with
    | some cap => some cap
    | none => fieldLazyMatch tok cs

/-- The unescape chain applied to a regex-extracted `code` body:
`\n`, `\r`, `\t`, `\"`, `\\` replaced in that order. -/
def manualUnescapeCode (l : List Char) : List Char :=
  replaceAll ['\\', '\\'] ['\\']
    (replaceAll ['\\', '"'] ['"']
      (replaceAll ['\\', 't'] ['\t']
        (replaceAll ['\\', 'r'] ['\r']
          (replaceAll ['\\', 'n'] ['\n'] l))))

/-- The unescape chain applied to a regex-extracted `explanation` body. -/
def manualUnescapeExpl (l : List Char) : List Char :=
  replaceAll ['\\', 'n'] ['\n'] (replaceAll ['\\', '"'] ['"'] l)

/-! ## `parseLLMResponse` (parser-generator.ts lines 223-301) -/

/-- Candidate selection: fenced block first, then a bare object span, else the
whole response. -/
def candidateOf (response : List Char) : List Char :=
  match fencedMatch response with
  | some j => j
  | none =>
    match bareObjectMatch response with
    | some j => j
    | none => response

/-- The total repair chain of `parseLLMResponse`: strict parse, sanitize and
re-parse, manual regex extraction, and finally the whole response as the code
body with a placeholder explanation.  Every attempt that throws in the source
is wrapped in `try`/`catch`, so the chain itself never raises. -/
def repairChain (response : List Char) : JSVal :=
  let jsonToParse := candidateOf response
  match jsonParseTop jsonToParse with
  | some v => v
  | none =>
    match jsonParseTop (sanitizeJsonString jsonToParse) with
    | some v => v
    | none =>
      match fieldLazyMatch codeTok jsonToParse with
      | some rawCode =>
        .obj [("explanation".toList,
               .str (match fieldLazyMatch explTok jsonToParse with
                     | some e => manualUnescapeExpl e
                     | none => "No explanation provided".toList)),
              ("code".toList, .str (manualUnescapeCode rawCode))]
      | none =>
        .obj [("explanation".toList, .str "No explanation provided".toList),
              ("code".toList, .str response)]

/-- `parseLLMResponse`: after the repair chain, `if (!parsedResponse.code)`
throws (`Except.error`) exactly when the `code` property is falsy. -/
def parseLLMResponse (response : List Char) : Except Unit JSVal :=
  let v := repairChain response
  if truthy (jLookup v "code".toList) then .ok v else .error ()

/-- Formalization of the words of the specification sentence for claim C6:
the final `code` field is the empty string or absent. -/
def codeFieldEmptyOrAbsent (v : JSVal) : Bool :=
  match jLookup v "code".toList with
  | .undefined => true
  | .str [] => true
  | _ => false

/-! ## Sandboxed executor (`src/unnamed` code-executor, lines 2107-2155)

The page-context evaluation of the generated code (the `Function` constructor
call on `fullCode`, which also performs the `typeof extractProducts` check) is
an oracle: it either throws with a message, produces no frame result, or
returns a JavaScript value. -/

inductive ExecOutcome where
  | throws (msg : List Char)
  | noResult
  | returns (v : JSVal)
deriving Repr

/-- `executeParserCode`: a thrown error (including the missing-function check
inside the injected code) is re-wrapped with the `Failed to execute parser
code:` prefix; an array result is returned as-is; a non-array result is
wrapped as `[result].filter(Boolean)` and returned as a success. -/
def executeParserCode (run : ExecOutcome) : Except (List Char) (List JSVal) :=
  match run with
  | .throws m => .error ("Failed to execute parser code: ".toList ++ m)
  | .noResult =>
    .error ("Failed to execute parser code: No results returned from script execution".toList)
  | .returns (.arr xs) => .ok xs
  | .returns v => .ok ([v].filter truthy)

/-! ## Parser cache store model

`browser.storage.local` is an association list with JS-object key semantics:
setting an existing key updates it in place, a new key is appended. -/

structure SavedParserCode where
  code : List Char
  url : List Char
  title : List Char
  generatedAt : Nat
deriving Repr

abbrev Store := List (List Char × SavedParserCode)

/-- `browser.storage.local.set({[k]: v})`. -/
def storeSet (st : Store) (k : List Char) (v : SavedParserCode) : Store :=
  if st.any (fun e => e.1 = k) then st.map (fun e => if e.1 = k then (k, v) else e)
  else st ++ [(k, v)]

def parserCodeKeyHead : List Char := "parser_code_".toList

/-- The removal test of `generateAndSaveParser` (lines 337-348): a
`parser_code_` entry with a truthy URL related to `pageUrl` by a prefix match
in either direction. -/
def relatedEntry (pageUrl : List Char) (e : List Char × SavedParserCode) : Bool :=
  parserCodeKeyHead.isPrefixOf e.1 && e.2.url ≠ [] &&
    (isUrlPrefixOf e.2.url pageUrl || isUrlPrefixOf pageUrl e.2.url)

/-- The supersede step: remove every related entry. -/
def removeRelated (st : Store) (pageUrl : List Char) : Store :=
  st.filter (fun e => !(relatedEntry pageUrl e))

/-- `parser_code_` + `normalizeUrlForStorage(pageUrl)`. -/
def storageKeyFor (pageUrl : List Char) : List Char :=
  parserCodeKeyHead ++ normalizeUrlForStorage pageUrl

/-- The storage write performed when a generated parser is persisted. -/
def persistParser (st : Store) (pageUrl pageTitle code : List Char) (now : Nat) : Store :=
  storeSet st (storageKeyFor pageUrl) ⟨code, pageUrl, pageTitle, now⟩

/-- String coercion of the `code` property for storage.  A `code` value is a
string in every reachable case; non-string values are coarsely coerced
(array stringification is not modelled in detail). -/
def jsCodeChars : JSVal → List Char
  | .str s => s
  | .num n => (toString n).toList
  | .bool b => (toString b).toList
  | .null => "null".toList
  | .undefined => "undefined".toList
  | .arr _ => "[array]".toList
  | .obj _ => "[object Object]".toList

/-! ## `generateAndSaveParser` (parser-generator.ts lines 324-513)

Oracles: `llm i` is the outcome of `callOpenRouter` on iteration `i` (either a
transport error with a message or a response string); `run i` is the
page-context execution outcome of iteration `i`'s generated code against the
sample text.  Prompt construction (system prompt, reflection prompt) only
feeds the model and does not influence control flow, so the prompt text is
not modelled; `lastCode`/`lastError` are still tracked as in the source. -/

inductive GenErr where
  | transport (msg : List Char)
  | malformed
  | execFailed (msg : List Char)
  | exhausted
deriving Repr

structure GenResult where
  outcome : Except GenErr (List Char)
  store : Store
  calls : Nat
deriving Repr

def missingCodeMsg : List Char :=
  "The LLM response does not contain a \"code\" field".toList

/-- The `for (iteration = 1..MAX_ITERATIONS)` loop of `generateAndSaveParser`.
`iters` holds the remaining iteration numbers, so `rest = []` is the
`iteration === MAX_ITERATIONS` test of the outer catch and of the
execution-error catch.  `calls` counts `callOpenRouter` invocations. -/
def genIter (llm : Nat → Except (List Char) (List Char)) (run : Nat → ExecOutcome)
    (tabId : Option Nat) (pageUrl pageTitle : List Char) (now : Nat) :
    List Nat → Option (List Char) → Option (List Char) → Store → Nat → GenResult
  | [], _, _, st, calls => ⟨.error .exhausted, st, calls⟩
  | i :: rest, lastCode, _lastError, st, calls =>
    match llm i with
    | .error msg =>
      -- transport error thrown by callOpenRouter, caught by the outer catch
      if rest = [] then ⟨.error (.transport msg), st, calls + 1⟩
      else genIter llm run tabId pageUrl pageTitle now rest lastCode (some msg) st (calls + 1)
    | .ok response =>
      match parseLLMResponse response with
      | .error _ =>
        -- MalformedResponse thrown by parseLLMResponse, caught by the outer catch
        if rest = [] then ⟨.error .malformed, st, calls + 1⟩
        else
          genIter llm run tabId pageUrl pageTitle now rest lastCode (some missingCodeMsg) st
            (calls + 1)
      | .ok parsed =>
        let code := jsCodeChars (jLookup parsed "code".toList)
        match tabId with
        | none =>
          -- no tabId: skip validation and save directly
          ⟨.ok code, persistParser st pageUrl pageTitle code now, calls + 1⟩
        | some _ =>
          match executeParserCode (run i) with
          | .error e =>
            -- execution error: retry with reflection, or re-throw on the last iteration
            if rest = [] then ⟨.error (.execFailed e), st, calls + 1⟩
            else
              genIter llm run tabId pageUrl pageTitle now rest (some code)
                (some ("Execution error: ".toList ++ e)) st (calls + 1)
          | .ok products =>
            let validation := validateExtractedProducts (.arr products)
            if validation.isValid then
              ⟨.ok code, persistParser st pageUrl pageTitle code now, calls + 1⟩
            else if rest = [] then
              -- reached MAX_ITERATIONS: save the last generated code anyway
              ⟨.ok code, persistParser st pageUrl pageTitle code now, calls + 1⟩
            else
              genIter llm run tabId pageUrl pageTitle now rest (some code)
                (some (validation.error.getD "Validation failed".toList)) st (calls + 1)

/-- `generateAndSaveParser`: the related-entry removal runs first,
unconditionally, then the reflection loop over iterations `1..3`
(`MAX_ITERATIONS = 3`). -/
def generateAndSaveParser (llm : Nat → Except (List Char) (List Char))
    (run : Nat → ExecOutcome) (tabId : Option Nat) (pageUrl pageTitle : List Char)
    (now : Nat) (st : Store) : GenResult :=
  genIter llm run tabId pageUrl pageTitle now [1, 2, 3] none none (removeRelated st pageUrl) 0

/-! ## `loadSavedParserCode` (parser-generator.ts lines 521-565) -/

/-- Storage behavior during one `loadSavedParserCode` call: the exact-key
`get` (already projected to the entry under the normalized key, or `none` on
a miss) and the `get(null)` scan; `Except.error` models the store throwing. -/
structure StoreOps where
  getExact : Except Unit (Option SavedParserCode)
  getAll : Except Unit Store

/-- Sort relation of the prefix branch: longer stored URL strings first
(`(a, b) => b.data.url.length - a.data.url.length`). -/
def entryLonger (a b : List Char × SavedParserCode) : Prop :=
  b.2.url.length ≤ a.2.url.length

instance : DecidableRel entryLonger := fun a b =>
  inferInstanceAs (Decidable (b.2.url.length ≤ a.2.url.length))

instance : IsTotal (List Char × SavedParserCode) entryLonger :=
  ⟨fun a b => Nat.le_total b.2.url.length a.2.url.length⟩

instance : IsTrans (List Char × SavedParserCode) entryLonger :=
  ⟨fun _ _ _ h h2 => le_trans h2 h⟩

/-- The entries considered by the prefix branch: `parser_code_` keys whose
stored record has a truthy `url` and `code`. -/
def prefixCandidates (entries : Store) : Store :=
  entries.filter fun e =>
    parserCodeKeyHead.isPrefixOf e.1 && e.2.url ≠ [] && e.2.code ≠ []

/-- The prefix-matching branch of `loadSavedParserCode`: candidates sorted by
stored-URL length descending (stable, modelled by insertion sort), first
entry whose stored URL is a URL-prefix of the requested URL. -/
def prefixLookup (entries : Store) (pageUrl : List Char) : Option (List Char) :=
  (((prefixCandidates entries).insertionSort entryLonger).find? fun e =>
      isUrlPrefixOf e.2.url pageUrl).map fun e => e.2.code

/-- The prefix branch including the `get(null)` storage read. -/
def loadViaPrefixBranch (ops : StoreOps) (pageUrl : List Char) : Option (List Char) :=
  match ops.getAll with
  | .error _ => none
  | .ok entries => prefixLookup entries pageUrl

/-- `loadSavedParserCode`: exact match first, then prefix matching; the whole
body is wrapped in `try`/`catch` returning `null`, so a storage exception at
either read yields `none`. -/
def loadSavedParserCode (ops : StoreOps) (pageUrl : List Char) : Option (List Char) :=
  match ops.getExact with
  | .error _ => none
  | .ok (some d) =>
    if d.code ≠ [] then some d.code
    else loadViaPrefixBranch ops pageUrl
  | .ok none => loadViaPrefixBranch ops pageUrl

/-! ## Pagination crawl (`src/unnamed/part_000`, scrape-all-pages handler,
lines 900-1098)

Oracles: `out n` is the outcome of acquiring and executing the parser on page
`n` — `none` when navigation/extraction/execution threw (after the retry
budget), `some ps` for an extracted product list.  `flag n` is the value of
the shared `shouldStopScraper` flag as observed by the checks made while the
page counter equals `n`. -/

structure CrawlResult where
  products : List JSVal
  consecutiveFailures : Nat
  pageNumber : Nat
  wasStopped : Bool

/-- The `while (hasMorePages && pageNumber <= maxPages && !shouldStopScraper)`
loop for pages `≥ 2`.  An empty or absent result and a thrown page error both
increment `consecutiveFailures` and stop at the threshold 2; a non-empty
result resets the counter, appends, and re-checks the stop flag after the
inter-page delay.  `fuel` only bounds the recursion; it is instantiated with
`maxPages + 1`, which the page counter can never exhaust. -/
def crawlLoop (out : Nat → Option (List JSVal)) (flag : Nat → Bool) (maxPages : Nat) :
    Nat → Nat → Nat → List JSVal → CrawlResult
  | 0, page, fails, acc => ⟨acc, fails, page, flag page⟩
  | fuel + 1, page, fails, acc =>
    if page ≤ maxPages ∧ flag page = false then
      match out page with
      | some (p :: ps) =>
        let acc2 := acc ++ p :: ps
        if flag (page + 1) then ⟨acc2, 0, page + 1, true⟩
        else crawlLoop out flag maxPages fuel (page + 1) 0 acc2
      | _ =>
        if 2 ≤ fails + 1 then ⟨acc, fails + 1, page, flag page⟩
        else crawlLoop out flag maxPages fuel (page + 1) (fails + 1) acc
    else ⟨acc, fails, page, flag page⟩

/-- The whole multi-page crawl.  Page 1 is handled before the loop and before
`consecutiveFailures` exists: a thrown page error aborts the crawl
(`throw pageError`), an empty result sets `hasMorePages = false` so the loop
never runs, and a non-empty result is appended before the loop starts at
page 2. -/
def scrapeAllPages (out : Nat → Option (List JSVal)) (flag : Nat → Bool)
    (maxPages : Nat) : Except Unit CrawlResult :=
  match out 1 with
  | none => .error ()
  | some [] => .ok ⟨[], 0, 1, flag 1⟩
  | some ps => .ok (crawlLoop out flag maxPages (maxPages + 1) 2 0 ps)

/-! ## Theorems -/

/-- The object guard of the validator loop is redundant: the recognized fields
can only be truthy on an object. -/
theorem objGuard_redundant (p : JSVal) :
    (isObjectLike p &&
        (truthy (jLookup p "name".toList) || truthy (jLookup p "priceRaw".toList) ||
          truthy (jLookup p "priceNormalized".toList))) =
      (truthy (jLookup p "name".toList) || truthy (jLookup p "priceRaw".toList) ||
        truthy (jLookup p "priceNormalized".toList)) := by
  cases p <;> simp [isObjectLike, jLookup, truthy]

/-- Claim C8: `validateExtractedProducts` rejects exactly when the input is
not an array, or the array is empty, or no element has at least one of
`name`, `priceRaw`, `priceNormalized` truthy; in particular `[]` fails,
an object with a `name` succeeds, and an object with only a `foo` field
fails. -/
theorem C8_validator :
    (∀ v : JSVal,
      (validateExtractedProducts v).isValid = true ↔
        ∃ xs, v = .arr xs ∧ xs ≠ [] ∧ ∃ p ∈ xs,
          (truthy (jLookup p "name".toList) || truthy (jLookup p "priceRaw".toList) ||
            truthy (jLookup p "priceNormalized".toList)) = true) ∧
    (validateExtractedProducts (.arr [])).isValid = false ∧
    (validateExtractedProducts (.arr [.obj [("name".toList, .str ['x'])]])).isValid = true ∧
    (validateExtractedProducts (.arr [.obj [("foo".toList, .str "bar".toList)]])).isValid = false := by
  refine ⟨fun v => ?_, by rfl, by rfl, by rfl⟩
  cases v with
  | arr xs =>
    cases xs with
    | nil => simp [validateExtractedProducts]
    | cons x tl =>
      have hany : ((x :: tl).any fun p =>
          isObjectLike p && (truthy (jLookup p "name".toList) ||
            truthy (jLookup p "priceRaw".toList) ||
            truthy (jLookup p "priceNormalized".toList))) =
          ((x :: tl).any fun p =>
            truthy (jLookup p "name".toList) || truthy (jLookup p "priceRaw".toList) ||
              truthy (jLookup p "priceNormalized".toList)) := by
        induction (x :: tl) with
        | nil => rfl
        | cons y ys ih => simp only [List.any_cons, objGuard_redundant, ih]
      have key : (validateExtractedProducts (.arr (x :: tl))).isValid =
          ((x :: tl).any fun p =>
            truthy (jLookup p "name".toList) || truthy (jLookup p "priceRaw".toList) ||
              truthy (jLookup p "priceNormalized".toList)) := by
        simp only [validateExtractedProducts, hany]
        cases h : ((x :: tl).any fun p =>
          truthy (jLookup p "name".toList) || truthy (jLookup p "priceRaw".toList) ||
            truthy (jLookup p "priceNormalized".toList)) <;> simp [h]
      rw [key, List.any_eq_true]
      constructor
      · rintro ⟨p, hp, hF⟩
        exact ⟨x :: tl, rfl, by simp, p, hp, hF⟩
      · rintro ⟨xs, hxs, _, p, hp, hF⟩
        injection hxs with h2
        subst h2
        exact ⟨p, hp, hF⟩
  | null => simp [validateExtractedProducts]
  | undefined => simp [validateExtractedProducts]
  | bool b => simp [validateExtractedProducts]
  | num n => simp [validateExtractedProducts]
  | str s => simp [validateExtractedProducts]
  | obj fs => simp [validateExtractedProducts]

/-- Witness for C8 at a concrete input. -/
theorem C8_validator_witness :
    (validateExtractedProducts (.arr [.obj [("name".toList, .str ['x'])]])).isValid = true :=
  (C8_validator.1 (.arr [.obj [("name".toList, .str ['x'])]])).mpr
    ⟨[.obj [("name".toList, .str ['x'])]], rfl, by simp,
      .obj [("name".toList, .str ['x'])], by simp, by rfl⟩

/-- Claim C3 counterexample: a non-array return value (here the string `"x"`)
is converted into a successful one-element array result, not surfaced as an
`ExecutionError`. -/
theorem C3_counterexample :
    executeParserCode (.returns (.str ['x'])) = .ok [.str ['x']] := by
  rfl

/-- Claim C3 (amended): a thrown page-context error (which includes the
missing-`extractProducts` check) and a missing frame result surface as
`ExecutionError`; an array is returned as-is; but a non-array return value is
wrapped as `[result].filter(Boolean)` and returned as a success. -/
theorem C3_executor_behavior :
    (∀ m, executeParserCode (.throws m) =
      .error ("Failed to execute parser code: ".toList ++ m)) ∧
    (executeParserCode .noResult =
      .error ("Failed to execute parser code: No results returned from script execution".toList)) ∧
    (∀ xs, executeParserCode (.returns (.arr xs)) = .ok xs) ∧
    (∀ v, (∀ xs, v ≠ .arr xs) →
      executeParserCode (.returns v) = .ok ([v].filter truthy)) := by
  refine ⟨fun m => rfl, rfl, fun xs => rfl, fun v hv => ?_⟩
  cases v with
  | arr xs => exact absurd rfl (hv xs)
  | null => rfl
  | undefined => rfl
  | bool b => rfl
  | num n => rfl
  | str s => rfl
  | obj fs => rfl

/-- Witness for C3 at concrete inputs. -/
theorem C3_executor_behavior_witness :
    executeParserCode (.returns (.num 7)) = .ok ([.num 7].filter truthy) :=
  C3_executor_behavior.2.2.2 (.num 7) (fun xs h => by cases h)

/-- Claim C6 counterexample: on the response `{"explanation":"e","code":0}`
the operation throws (`MalformedResponse`) although the final `code` field is
present and non-empty (it is the number `0`, which is falsy). -/
theorem C6_counterexample :
    parseLLMResponse ("\x7b\"explanation\":\"e\",\"code\":0\x7d".toList) = .error () ∧
    codeFieldEmptyOrAbsent
      (repairChain ("\x7b\"explanation\":\"e\",\"code\":0\x7d".toList)) = false := by
  exact ⟨by rfl, by rfl⟩

/-- Claim C6 (amended): the repair chain is a total function (no repair
attempt raises); when the fenced-block / bare-object candidates fail all of
strict parse, sanitize-and-reparse and regex extraction, the entire raw
response becomes the code body with the fixed placeholder explanation; and
the operation throws if and only if the final `code` property is falsy
(for the expected string-valued field that means empty or absent, but a falsy
non-string such as `0` also throws). -/
theorem C6_response_repair :
    ∀ r : List Char,
      (parseLLMResponse r = .error () ↔
        truthy (jLookup (repairChain r) "code".toList) = false) ∧
      (jsonParseTop (candidateOf r) = none →
        jsonParseTop (sanitizeJsonString (candidateOf r)) = none →
        fieldLazyMatch codeTok (candidateOf r) = none →
        repairChain r = .obj [("explanation".toList, .str "No explanation provided".toList),
          ("code".toList, .str r)]) ∧
      (r ≠ [] →
        jsonParseTop (candidateOf r) = none →
        jsonParseTop (sanitizeJsonString (candidateOf r)) = none →
        fieldLazyMatch codeTok (candidateOf r) = none →
        parseLLMResponse r = .ok (repairChain r)) := by
  intro r
  have hfall : jsonParseTop (candidateOf r) = none →
      jsonParseTop (sanitizeJsonString (candidateOf r)) = none →
      fieldLazyMatch codeTok (candidateOf r) = none →
      repairChain r = .obj [("explanation".toList, .str "No explanation provided".toList),
        ("code".toList, .str r)] := by
    intro h1 h2 h3
    unfold repairChain
    simp only [h1, h2, h3]
  refine ⟨?_, hfall, ?_⟩
  · unfold parseLLMResponse
    by_cases h : truthy (jLookup (repairChain r) "code".toList) = true
    · simp [h]
    · simp only [Bool.not_eq_true] at h
      simp [h]
  · intro hr h1 h2 h3
    have hv := hfall h1 h2 h3
    unfold parseLLMResponse
    rw [hv]
    simp [jLookup, truthy, hr]

/-- Witness for C6 at the concrete response `hello world`, on which every
repair attempt fails. -/
theorem C6_response_repair_witness :
    parseLLMResponse ("hello world".toList) = .ok (repairChain ("hello world".toList)) :=
  (C6_response_repair ("hello world".toList)).2.2 (by decide) (by rfl) (by rfl) (by rfl)

/-- Claim C10: `loadSavedParserCode` is total at its interface — a storage
exception during the exact-match read, or during the prefix-scan read when the
exact match did not produce usable code, yields `none` instead of propagating;
and any returned code comes from the exact entry or from the prefix branch. -/
theorem C10_load_total :
    ∀ (ops : StoreOps) (u : List Char),
      (ops.getExact = .error () → loadSavedParserCode ops u = none) ∧
      ((ops.getExact = .ok none ∨ ∃ d, ops.getExact = .ok (some d) ∧ d.code = []) →
        ops.getAll = .error () → loadSavedParserCode ops u = none) ∧
      (∀ c, loadSavedParserCode ops u = some c →
        (∃ d, ops.getExact = .ok (some d) ∧ d.code = c) ∨
        (∃ entries, ops.getAll = .ok entries ∧ prefixLookup entries u = some c)) := by
  intro ops u
  refine ⟨fun h => by simp [loadSavedParserCode, h], ?_, ?_⟩
  · rintro (h | ⟨d, h, hcode⟩) hall
    · simp [loadSavedParserCode, h, loadViaPrefixBranch, hall]
    · simp [loadSavedParserCode, h, hcode, loadViaPrefixBranch, hall]
  · intro c hc
    unfold loadSavedParserCode at hc
    cases hex : ops.getExact with
    | error e => rw [hex] at hc; cases hc
    | ok res =>
      rw [hex] at hc
      cases res with
      | none =>
        unfold loadViaPrefixBranch at hc
        cases hall : ops.getAll with
        | error e => rw [hall] at hc; cases hc
        | ok entries => rw [hall] at hc; exact Or.inr ⟨entries, rfl, hc⟩
      | some d =>
        by_cases hd : d.code = []
        · simp only [hd] at hc
          unfold loadViaPrefixBranch at hc
          simp at hc
          cases hall : ops.getAll with
          | error e => rw [hall] at hc; cases hc
          | ok entries => rw [hall] at hc; exact Or.inr ⟨entries, rfl, hc⟩
        · simp only [hd] at hc
          simp [hd] at hc
          exact Or.inl ⟨d, rfl, hc⟩

/-- Witness for C10 with a concrete failing store. -/
theorem C10_load_total_witness :
    loadSavedParserCode ⟨.error (), .error ()⟩ ("http://x/a".toList) = none :=
  (C10_load_total ⟨.error (), .error ()⟩ ("http://x/a".toList)).1 rfl

/-- The reflection loop consumes at most one model call per remaining
iteration. -/
theorem genIter_calls_le (llm : Nat → Except (List Char) (List Char))
    (run : Nat → ExecOutcome) (tab : Option Nat) (u t : List Char) (now : Nat) :
    ∀ (iters : List Nat) lc le st calls,
      (genIter llm run tab u t now iters lc le st calls).calls ≤ calls + iters.length := by
  intro iters
  induction iters with
  | nil => intro lc le st calls; simp [genIter]
  | cons i rest ih =>
    intro lc le st calls
    simp only [genIter, List.length_cons]
    repeat' split
    all_goals first
      | (exact Nat.le_trans (ih _ _ _ _) (by omega))
      | (simp only []; omega)

/-- Claim C7: a single `generateAndSaveParser` call performs at most
`MAX_ITERATIONS = 3` model calls, whatever the oracles do. -/
theorem C7_iteration_budget :
    ∀ llm run tab (u t : List Char) now st,
      (generateAndSaveParser llm run tab u t now st).calls ≤ 3 := by
  intro llm run tab u t now st
  have h := genIter_calls_le llm run tab u t now [1, 2, 3] none none (removeRelated st u) 0
  simpa [generateAndSaveParser] using h

/-- Witness for C7 at concrete oracles. -/
theorem C7_iteration_budget_witness :
    (generateAndSaveParser (fun _ => .error []) (fun _ => .noResult) none [] [] 0 []).calls ≤ 3 :=
  C7_iteration_budget (fun _ => .error []) (fun _ => .noResult) none [] [] 0 []

/-- Claim C1 counterexample: when every iteration generates parseable code
whose execution throws, the final iteration re-throws the execution error —
the function fails instead of persisting and returning the last code. -/
theorem C1_counterexample :
    (generateAndSaveParser
        (fun _ => .ok ("\x7b\"explanation\":\"e\",\"code\":\"x\"\x7d".toList))
        (fun _ => .throws ("boom".toList)) (some 1)
        ("http://x/a".toList) ("T".toList) 0 []).outcome =
      .error (.execFailed ("Failed to execute parser code: boom".toList)) := by
  rfl

/-- Claim C1 (amended): at the final iteration (`iters = [3]`), a
`ValidationFailed` outcome still persists the just-generated code and returns
it, but a transport error, a `MalformedResponse` and an `ExecutionError` each
propagate as exceptions. -/
theorem C1_final_iteration_behavior :
    ∀ llm run (tid : Nat) (u t : List Char) now lc le st calls,
      (∀ msg, llm 3 = .error msg →
        genIter llm run (some tid) u t now [3] lc le st calls =
          ⟨.error (.transport msg), st, calls + 1⟩) ∧
      (∀ resp, llm 3 = .ok resp → parseLLMResponse resp = .error () →
        genIter llm run (some tid) u t now [3] lc le st calls =
          ⟨.error .malformed, st, calls + 1⟩) ∧
      (∀ resp parsed e, llm 3 = .ok resp → parseLLMResponse resp = .ok parsed →
        executeParserCode (run 3) = .error e →
        genIter llm run (some tid) u t now [3] lc le st calls =
          ⟨.error (.execFailed e), st, calls + 1⟩) ∧
      (∀ resp parsed products, llm 3 = .ok resp → parseLLMResponse resp = .ok parsed →
        executeParserCode (run 3) = .ok products →
        (validateExtractedProducts (.arr products)).isValid = false →
        genIter llm run (some tid) u t now [3] lc le st calls =
          ⟨.ok (jsCodeChars (jLookup parsed "code".toList)),
            persistParser st u t (jsCodeChars (jLookup parsed "code".toList)) now,
            calls + 1⟩) := by
  intro llm run tid u t now lc le st calls
  refine ⟨fun msg h => ?_, fun resp h hp => ?_, fun resp parsed e h hp he => ?_,
    fun resp parsed products h hp he hv => ?_⟩
  · simp [genIter, h]
  · simp [genIter, h, hp]
  · simp [genIter, h, hp, he]
  · simp [genIter, h, hp, he, hv]

/-- Witness for C1: a concrete final iteration whose validation fails still
returns and persists the generated code. -/
theorem C1_final_iteration_behavior_witness :
    genIter (fun _ => .ok ("\x7b\"explanation\":\"e\",\"code\":\"x\"\x7d".toList))
        (fun _ => .returns (.arr [])) (some 1) ("http://x".toList) ("T".toList) 0
        [3] none none [] 0 =
      ⟨.ok ['x'], persistParser [] ("http://x".toList) ("T".toList) ['x'] 0, 1⟩ :=
  (C1_final_iteration_behavior (fun _ => .ok ("\x7b\"explanation\":\"e\",\"code\":\"x\"\x7d".toList))
      (fun _ => .returns (.arr [])) 1 ("http://x".toList) ("T".toList) 0 none none [] 0).2.2.2
    ("\x7b\"explanation\":\"e\",\"code\":\"x\"\x7d".toList)
    (.obj [("explanation".toList, .str ['e']), ("code".toList, .str ['x'])]) []
    rfl (by rfl) (by rfl) (by rfl)

/-- The loop body never touches the store except by persisting once and
returning. -/
theorem genIter_store_shape (llm : Nat → Except (List Char) (List Char))
    (run : Nat → ExecOutcome) (tab : Option Nat) (u t : List Char) (now : Nat) :
    ∀ (iters : List Nat) lc le st calls,
      (genIter llm run tab u t now iters lc le st calls).store = st ∨
      ∃ c, (genIter llm run tab u t now iters lc le st calls).store =
        persistParser st u t c now := by
  intro iters
  induction iters with
  | nil => intro lc le st calls; exact Or.inl rfl
  | cons i rest ih =>
    intro lc le st calls
    simp only [genIter]
    repeat' split
    all_goals first
      | (exact ih _ _ _ _)
      | (exact Or.inl rfl)
      | (exact Or.inr ⟨_, rfl⟩)

/-- `storeSet` preserves distinctness of keys. -/
theorem storeSet_nodup_keys (st : Store) (k : List Char) (v : SavedParserCode)
    (h : (st.map Prod.fst).Nodup) : ((storeSet st k v).map Prod.fst).Nodup := by
  unfold storeSet
  split
  · have : (st.map fun e => if e.1 = k then (k, v) else e).map Prod.fst = st.map Prod.fst := by
      rw [List.map_map]
      refine List.map_congr_left fun e _ => ?_
      by_cases he : e.1 = k <;> simp [he]
    rw [this]
    exact h
  · next hany =>
    rw [List.map_append]
    simp only [List.map_cons, List.map_nil]
    rw [List.nodup_append]
    refine ⟨h, List.nodup_singleton k, ?_⟩
    intro a ha hb
    simp only [List.mem_singleton] at hb
    subst hb
    simp only [List.any_eq_true, decide_eq_true_eq] at hany
    obtain ⟨e, he, hek⟩ := List.mem_map.mp ha
    exact hany ⟨e, he, hek⟩

/-- Keys of a filtered store stay distinct. -/
theorem removeRelated_nodup_keys (st : Store) (u : List Char)
    (h : (st.map Prod.fst).Nodup) : ((removeRelated st u).map Prod.fst).Nodup :=
  ((List.filter_sublist st).map Prod.fst).nodup h

/-- Claim C5 counterexample: a run in which every model call fails at the
transport level persists nothing, yet the pre-existing related cache entry
has been removed — removal is not part of persisting. -/
theorem C5_counterexample :
    generateAndSaveParser (fun _ => .error ("down".toList)) (fun _ => .returns (.arr []))
        (some 1) ("http://x/a/b".toList) ("T".toList) 7
        [("parser_code_x_a".toList,
          ⟨"C".toList, "http://x/a".toList, "t".toList, 0⟩)] =
      ⟨.error (.transport ("down".toList)), [], 3⟩ := by
  rfl

/-- Claim C5 (amended): `generateAndSaveParser` removes every related entry
up front, before any generation — even executions that never persist code
remove them; the write, when it happens, lands on the already-superseded
store; and key-value storage keeps at most one entry per key. -/
theorem C5_supersede_then_write :
    ∀ llm run tab (u t : List Char) now (st : Store),
      ((generateAndSaveParser llm run tab u t now st).store = removeRelated st u ∨
        ∃ c, (generateAndSaveParser llm run tab u t now st).store =
          persistParser (removeRelated st u) u t c now) ∧
      (∀ e ∈ removeRelated st u, e ∈ st ∧ relatedEntry u e = false) ∧
      (∀ e ∈ st, relatedEntry u e = false → e ∈ removeRelated st u) ∧
      ((st.map Prod.fst).Nodup →
        ((generateAndSaveParser llm run tab u t now st).store.map Prod.fst).Nodup) := by
  intro llm run tab u t now st
  refine ⟨genIter_store_shape llm run tab u t now [1, 2, 3] none none (removeRelated st u) 0,
    ?_, ?_, ?_⟩
  · intro e he
    have h := List.mem_filter.mp he
    refine ⟨h.1, ?_⟩
    have := h.2
    simpa using this
  · intro e he hrel
    exact List.mem_filter.mpr ⟨he, by simpa using hrel⟩
  · intro h
    have hrem := removeRelated_nodup_keys st u h
    rcases genIter_store_shape llm run tab u t now [1, 2, 3] none none (removeRelated st u) 0 with
      hshape | ⟨c, hshape⟩
    · rw [generateAndSaveParser, hshape]
      exact hrem
    · rw [generateAndSaveParser, hshape]
      exact storeSet_nodup_keys _ _ _ hrem

/-- Witness for C5 at concrete oracles and store. -/
theorem C5_supersede_then_write_witness :
    ((generateAndSaveParser (fun _ => .error ("down".toList)) (fun _ => .returns (.arr []))
        (some 1) ("http://x/a/b".toList) ("T".toList) 7
        [("parser_code_x_a".toList,
          ⟨"C".toList, "http://x/a".toList, "t".toList, 0⟩)]).store.map Prod.fst).Nodup :=
  (C5_supersede_then_write (fun _ => .error ("down".toList)) (fun _ => .returns (.arr []))
      (some 1) ("http://x/a/b".toList) ("T".toList) 7
      [("parser_code_x_a".toList,
        ⟨"C".toList, "http://x/a".toList, "t".toList, 0⟩)]).2.2.2 (by simp)

/-- Claim C2 counterexample: when the very first page yields an empty product
array, the crawl stops at once with `consecutiveFailures = 0` — the counter
(which the claim says is incremented for every empty page) is never touched
for page 1. -/
theorem C2_counterexample :
    scrapeAllPages (fun _ => some []) (fun _ => false) 5 =
      .ok ⟨[], 0, 1, false⟩ ∧ (0 : Nat) ≠ 1 := by
  exact ⟨rfl, by decide⟩

/-- Claim C2 (amended): in the page loop (pages ≥ 2) an empty or absent
result increments the consecutive-failure counter and stops the crawl when it
reaches the fixed threshold 2, a non-empty result resets the counter and
appends the products, and the loop exits when the page counter exceeds the
maximum or the stop flag is observed; an empty result on page 1, however,
stops the crawl immediately without touching the counter; the concrete
2/2/2/0/0-products crawl stops after page 5 with counter 2, six products and
a natural completion. -/
theorem C2_crawl_evaluation :
    (∀ out flag maxPages fuel page fails (acc : List JSVal),
      page ≤ maxPages → flag page = false → out page = some [] → fails + 1 < 2 →
        crawlLoop out flag maxPages (fuel + 1) page fails acc =
          crawlLoop out flag maxPages fuel (page + 1) (fails + 1) acc) ∧
    (∀ out flag maxPages fuel page fails (acc : List JSVal),
      page ≤ maxPages → flag page = false → out page = some [] → 2 ≤ fails + 1 →
        crawlLoop out flag maxPages (fuel + 1) page fails acc =
          ⟨acc, fails + 1, page, flag page⟩) ∧
    (∀ out flag maxPages fuel page fails (acc : List JSVal) p ps,
      page ≤ maxPages → flag page = false → out page = some (p :: ps) →
      flag (page + 1) = false →
        crawlLoop out flag maxPages (fuel + 1) page fails acc =
          crawlLoop out flag maxPages fuel (page + 1) 0 (acc ++ p :: ps)) ∧
    (∀ out flag maxPages fuel page fails (acc : List JSVal),
      ¬ (page ≤ maxPages ∧ flag page = false) →
        crawlLoop out flag maxPages (fuel + 1) page fails acc =
          ⟨acc, fails, page, flag page⟩) ∧
    (∀ out flag maxPages, out 1 = some [] →
      scrapeAllPages out flag maxPages = .ok ⟨[], 0, 1, flag 1⟩) ∧
    scrapeAllPages
        (fun n => if n ≤ 3 then
          some [.obj [("name".toList, .str ['p'])], .obj [("name".toList, .str ['p'])]]
          else some [])
        (fun _ => false) 5 =
      .ok ⟨[.obj [("name".toList, .str ['p'])], .obj [("name".toList, .str ['p'])],
            .obj [("name".toList, .str ['p'])], .obj [("name".toList, .str ['p'])],
            .obj [("name".toList, .str ['p'])], .obj [("name".toList, .str ['p'])]],
           2, 5, false⟩ := by
  refine ⟨?_, ?_, ?_, ?_, ?_, ?_⟩
  · intro out flag maxPages fuel page fails acc hle hflag hout hlt
    simp [crawlLoop, hle, hflag, hout, Nat.not_le.mpr hlt]
  · intro out flag maxPages fuel page fails acc hle hflag hout hge
    simp [crawlLoop, hle, hflag, hout, hge]
  · intro out flag maxPages fuel page fails acc p ps hle hflag hout hflag2
    simp [crawlLoop, hle, hflag, hout, hflag2]
  · intro out flag maxPages fuel page fails acc hcond
    simp [crawlLoop, hcond]
  · intro out flag maxPages hout
    simp [scrapeAllPages, hout]
  · rfl

/-- Witness for C2 at a concrete loop state: page 4 of 5, first empty page of
a crawl, counter goes from 0 to 1. -/
theorem C2_crawl_evaluation_witness :
    crawlLoop (fun _ => some []) (fun _ => false) 5 3 4 0 [] =
      crawlLoop (fun _ => some []) (fun _ => false) 5 2 5 1 [] :=
  C2_crawl_evaluation.1 (fun _ => some []) (fun _ => false) 5 2 4 0 []
    (by decide) rfl rfl (by decide)

/-- `takeWhile`/`dropWhile` on an append whose left part satisfies `p` and
whose right part starts with a failing character (or is empty). -/
theorem takeWhile_dropWhile_append {α : Type} {p : α → Bool} :
    ∀ (a b : List α), (∀ c ∈ a, p c = true) → (∀ d, b.head? = some d → p d = false) →
      (a ++ b).takeWhile p = a ∧ (a ++ b).dropWhile p = b := by
  intro a
  induction a with
  | nil =>
    intro b _ hb
    cases b with
    | nil => simp
    | cons d bs =>
      have hd := hb d rfl
      simp [List.takeWhile_cons, List.dropWhile_cons, hd]
  | cons x xs ih =>
    intro b ha hb
    have hx : p x = true := ha x (by simp)
    have := ih b (fun c hc => ha c (by simp [hc])) hb
    simp [List.takeWhile_cons, List.dropWhile_cons, hx, this.1, this.2]

/-- `splitScheme` recovers the scheme and remainder of a built URL string. -/
theorem splitScheme_append (sch : Scheme) (rest : List Char) :
    splitScheme (schemeChars sch ++ rest) = some (sch, rest) := by
  cases sch <;> simp [splitScheme, schemeChars, List.isPrefixOf]

/-- Reconstruction: parsing a URL string assembled from well-formed
components yields exactly those components. -/
theorem parseURL_build (sch : Scheme) (host path search hash : List Char)
    (hh : host ≠ []) (hhc : ∀ c ∈ host, hostCharB c = true)
    (hpc : ∀ c ∈ path, pathCharB c = true) (hph : ∀ d, path.head? = some d → d = '/')
    (hs : ∀ d, search.head? = some d → d = '?') (hsc : ∀ c ∈ search, c ≠ '#')
    (hhash : ∀ d, hash.head? = some d → d = '#') :
    parseURL (schemeChars sch ++ (host ++ (path ++ (search ++ hash)))) =
      some { scheme := sch, host := host.map lowerChar,
             path := if path = [] then ['/'] else path,
             search := search, hash := hash } := by
  have hbhead : ∀ d, (path ++ (search ++ hash)).head? = some d → hostCharB d = false := by
    intro d hd
    cases path with
    | cons p0 _ =>
      have := hph p0 rfl
      subst this
      cases hd
      rfl
    | nil =>
      cases search with
      | cons s0 _ =>
        have := hs s0 rfl
        subst this
        cases hd
        rfl
      | nil =>
        cases hash with
        | cons h0 _ =>
          have := hhash h0 rfl
          subst this
          cases hd
          rfl
        | nil => cases hd
  have hhost := takeWhile_dropWhile_append host (path ++ (search ++ hash)) hhc hbhead
  have hpathhead : ∀ d, (search ++ hash).head? = some d → pathCharB d = false := by
    intro d hd
    cases search with
    | cons s0 _ =>
      have := hs s0 rfl
      subst this
      cases hd
      rfl
    | nil =>
      cases hash with
      | cons h0 _ =>
        have := hhash h0 rfl
        subst this
        cases hd
        rfl
      | nil => cases hd
  have hpath := takeWhile_dropWhile_append path (search ++ hash) hpc hpathhead
  have hsearchhead : ∀ d, hash.head? = some d → (decide (d ≠ '#') : Bool) = false := by
    intro d hd
    have := hhash d hd
    subst this
    simp
  have hsearch := takeWhile_dropWhile_append search hash
    (fun c hc => by simpa using hsc c hc) hsearchhead
  rw [parseURL, splitScheme_append]
  simp only [hhost.1, hhost.2, hpath.1, hpath.2]
  rw [if_neg hh]
  simp only [hsearch.1, hsearch.2]

/-- Decomposition: a successful parse determines an exact factorization of
the input string. -/
theorem parseURL_some_decomp (l : List Char) (r : UrlRec) (h : parseURL l = some r) :
    ∃ hostRaw pathRaw,
      l = schemeChars r.scheme ++ (hostRaw ++ (pathRaw ++ (r.search ++ r.hash))) ∧
      r.host = hostRaw.map lowerChar ∧ hostRaw ≠ [] ∧
      r.path = (if pathRaw = [] then ['/'] else pathRaw) ∧
      (∀ c ∈ hostRaw, hostCharB c = true) ∧ (∀ c ∈ pathRaw, pathCharB c = true) := by
  unfold parseURL at h
  cases hsp : splitScheme l with
  | none => rw [hsp] at h; cases h
  | some p =>
    obtain ⟨sch, rest⟩ := p
    rw [hsp] at h
    simp only at h
    by_cases hraw : rest.takeWhile hostCharB = []
    · rw [if_pos hraw] at h; cases h
    · rw [if_neg hraw] at h
      have hl : l = schemeChars sch ++ rest := by
        unfold splitScheme at hsp
        by_cases h8 : (schemeChars .https).isPrefixOf l
        · rw [if_pos h8] at hsp
          injection hsp with hsp'
          injection hsp' with hs1 hs2
          obtain ⟨t, ht⟩ := List.isPrefixOf_iff_prefix.mp h8
          subst hs1
          rw [← ht, ← hs2, ← ht]
          simp [schemeChars]
        · rw [if_neg h8] at hsp
          by_cases h7 : (schemeChars .http).isPrefixOf l
          · rw [if_pos h7] at hsp
            injection hsp with hsp'
            injection hsp' with hs1 hs2
            obtain ⟨t, ht⟩ := List.isPrefixOf_iff_prefix.mp h7
            subst hs1
            rw [← ht, ← hs2, ← ht]
            simp [schemeChars]
          · rw [if_neg h7] at hsp; cases hsp
      refine ⟨rest.takeWhile hostCharB, (rest.dropWhile hostCharB).takeWhile pathCharB,
        ?_, ?_, hraw, ?_, fun c hc => List.mem_takeWhile_imp hc,
        fun c hc => List.mem_takeWhile_imp hc⟩
      · injection h with h
        subst h
        simp only
        rw [hl]
        congr 1
        conv_lhs => rw [← List.takeWhile_append_dropWhile (p := hostCharB) (l := rest)]
        congr 1
        conv_lhs =>
          rw [← List.takeWhile_append_dropWhile (p := pathCharB) (l := rest.dropWhile hostCharB)]
        congr 1
        exact (List.takeWhile_append_dropWhile _ _).symm
      · injection h with h; subst h; rfl
      · injection h with h; subst h; rfl

/-- Claim C4 counterexample: a stored entry whose URL is longer only because
of its query string (`https://x/a?padpadpad`, path `/a`) beats the
longer-path entry (`https://x/a/b`): the sort key is the full stored-URL
string length, not the stored-path length, so the less specific parser is
returned. -/
theorem C4_counterexample :
    prefixLookup
        [("parser_code_k1".toList,
          ⟨"C1".toList, "https://x/a?padpadpad".toList, "t".toList, 0⟩),
         ("parser_code_k2".toList,
          ⟨"C2".toList, "https://x/a/b".toList, "t".toList, 0⟩)]
        ("https://x/a/b/c".toList) = some ("C1".toList) ∧
      "C1".toList ≠ "C2".toList := by
  exact ⟨by rfl, by decide⟩

/-- Claim C4 (amended): the prefix branch keeps only entries accepted by
`isUrlPrefix` — for parseable URL pairs that means equal protocol and
hostname and a segment-aligned path prefix — and orders candidates by full
stored-URL string length (not path length) descending; consequently the
longer-path entry wins only when the stored URLs carry no query or fragment,
in which case, for two matching entries sharing scheme and host with one path
a prefix of the other, the more specific entry is returned in either storage
order. -/
theorem C4_prefix_lookup :
    (∀ (entries : Store),
      ((prefixCandidates entries).insertionSort entryLonger).Sorted entryLonger ∧
      ((prefixCandidates entries).insertionSort entryLonger).Perm (prefixCandidates entries)) ∧
    (∀ (entries : Store) (u c : List Char), prefixLookup entries u = some c →
      ∃ e, e ∈ entries ∧ isUrlPrefixOf e.2.url u = true ∧ e.2.code = c ∧
        parserCodeKeyHead.isPrefixOf e.1 = true ∧ e.2.url ≠ [] ∧ e.2.code ≠ []) ∧
    (∀ (s c : List Char) (rs rc : UrlRec), parseURL s = some rs → parseURL c = some rc →
      (isUrlPrefixOf s c = true ↔ rs.scheme = rc.scheme ∧ rs.host = rc.host ∧
        (rc.path = stripSlash rs.path ∨ (stripSlash rs.path ++ ['/']) <+: rc.path))) ∧
    (∀ (e1 e2 : List Char × SavedParserCode) (u : List Char) (r1 r2 : UrlRec),
      parseURL e1.2.url = some r1 → parseURL e2.2.url = some r2 →
      r1.scheme = r2.scheme → r1.host = r2.host →
      r1.search = [] → r1.hash = [] → r2.search = [] → r2.hash = [] →
      isUrlPrefixOf e1.2.url u = true → isUrlPrefixOf e2.2.url u = true →
      r2.path.length < r1.path.length →
      parserCodeKeyHead.isPrefixOf e1.1 = true → parserCodeKeyHead.isPrefixOf e2.1 = true →
      e1.2.url ≠ [] → e1.2.code ≠ [] → e2.2.url ≠ [] → e2.2.code ≠ [] →
      prefixLookup [e1, e2] u = some e1.2.code ∧
        prefixLookup [e2, e1] u = some e1.2.code) := by
  refine ⟨fun entries => ⟨List.sorted_insertionSort entryLonger _,
    List.perm_insertionSort entryLonger _⟩, ?_, ?_, ?_⟩
  · intro entries u c hc
    unfold prefixLookup at hc
    obtain ⟨e, hfind, hcode⟩ := Option.map_eq_some'.mp hc
    have hpred := List.find?_some hfind
    have hmem : e ∈ (prefixCandidates entries).insertionSort entryLonger :=
      List.mem_of_find?_eq_some hfind
    have hmem2 : e ∈ prefixCandidates entries :=
      (List.perm_insertionSort entryLonger _).mem_iff.mp hmem
    have hmem3 := List.mem_filter.mp hmem2
    have hflt := hmem3.2
    simp only [Bool.and_eq_true, decide_eq_true_eq] at hflt
    exact ⟨e, hmem3.1, hpred, hcode, hflt.1.1, hflt.1.2, hflt.2⟩
  · intro s c rs rc hs hc
    unfold isUrlPrefixOf
    rw [hs, hc]
    dsimp only
    by_cases hsh : rs.scheme = rc.scheme ∧ rs.host = rc.host
    · rw [if_neg (by simp [hsh.1, hsh.2])]
      simp [hsh.1, hsh.2, List.isPrefixOf_iff_prefix]
    · rw [if_pos (by tauto)]
      simp only [Bool.false_eq_true, false_iff]
      intro hcontra
      exact hsh ⟨hcontra.1, hcontra.2.1⟩
  · intro e1 e2 u r1 r2 hp1 hp2 hsch hhost hq1 hh1 hq2 hh2 hm1 hm2 hlenp hk1 hk2 hu1 hc1
      hu2 hc2
    have hlen : e2.2.url.length < e1.2.url.length := by
      obtain ⟨h1raw, p1raw, hl1, hhost1, hne1, hpath1, _, _⟩ := parseURL_some_decomp _ _ hp1
      obtain ⟨h2raw, p2raw, hl2, hhost2, hne2, hpath2, _, _⟩ := parseURL_some_decomp _ _ hp2
      rw [hq1, hh1] at hl1
      rw [hq2, hh2] at hl2
      have hhl1 : h1raw.length = r1.host.length := by rw [hhost1, List.length_map]
      have hhl2 : h2raw.length = r2.host.length := by rw [hhost2, List.length_map]
      have hsl : (schemeChars r1.scheme).length = (schemeChars r2.scheme).length := by
        rw [hsch]
      have hhh : r1.host.length = r2.host.length := by rw [hhost]
      have hp2le : p2raw.length ≤ r2.path.length := by
        by_cases h : p2raw = []
        · subst h; simp
        · rw [hpath2, if_neg h]
      have hr2pos : 1 ≤ r2.path.length := by
        by_cases h : p2raw = []
        · rw [hpath2, if_pos h]; simp
        · rw [hpath2, if_neg h]
          cases p2raw with
          | nil => exact absurd rfl h
          | cons a b => simp
      have hp1len : p1raw.length = r1.path.length := by
        have hp1eq : p1raw = r1.path := by
          by_cases h : p1raw = []
          · rw [hpath1, if_pos h] at hlenp
            have hlt : r2.path.length < 1 := by simpa using hlenp
            omega
          · rw [hpath1, if_neg h]
        rw [hp1eq]
      have hlen1 : e1.2.url.length =
          (schemeChars r1.scheme).length + h1raw.length + p1raw.length := by
        rw [hl1]
        simp only [List.length_append, List.length_nil]
        omega
      have hlen2 : e2.2.url.length =
          (schemeChars r2.scheme).length + h2raw.length + p2raw.length := by
        rw [hl2]
        simp only [List.length_append, List.length_nil]
        omega
      omega
    have hsort1 : (prefixCandidates [e1, e2]).insertionSort entryLonger = [e1, e2] := by
      have hf : prefixCandidates [e1, e2] = [e1, e2] := by
        simp [prefixCandidates, List.filter, hk1, hk2, hu1, hc1, hu2, hc2]
      rw [hf]
      show List.orderedInsert entryLonger e1 (List.orderedInsert entryLonger e2 []) = [e1, e2]
      rw [List.orderedInsert, List.orderedInsert,
        if_pos (show entryLonger e1 e2 from Nat.le_of_lt hlen)]
    have hsort2 : (prefixCandidates [e2, e1]).insertionSort entryLonger = [e1, e2] := by
      have hf : prefixCandidates [e2, e1] = [e2, e1] := by
        simp [prefixCandidates, List.filter, hk1, hk2, hu1, hc1, hu2, hc2]
      rw [hf]
      show List.orderedInsert entryLonger e2 (List.orderedInsert entryLonger e1 []) = [e1, e2]
      rw [List.orderedInsert, List.orderedInsert,
        if_neg (show ¬ entryLonger e2 e1 from Nat.not_le.mpr hlen), List.orderedInsert]
    constructor
    · unfold prefixLookup
      rw [hsort1]
      simp [List.find?, hm1]
    · unfold prefixLookup
      rw [hsort2]
      simp [List.find?, hm1]

/-- Witness for C4 on a concrete two-entry store without queries: the
longer-path entry wins in both storage orders. -/
theorem C4_prefix_lookup_witness :
    prefixLookup
        [(("parser_code_a".toList),
          ⟨"CL".toList, "https://x/a/b".toList, "t".toList, 0⟩),
         (("parser_code_b".toList),
          ⟨"CS".toList, "https://x/a".toList, "t".toList, 0⟩)]
        ("https://x/a/b/c".toList) = some ("CL".toList) :=
  (C4_prefix_lookup.2.2.2
    (("parser_code_a".toList), ⟨"CL".toList, "https://x/a/b".toList, "t".toList, 0⟩)
    (("parser_code_b".toList), ⟨"CS".toList, "https://x/a".toList, "t".toList, 0⟩)
    ("https://x/a/b/c".toList)
    ⟨.https, ['x'], "/a/b".toList, [], []⟩ ⟨.https, ['x'], "/a".toList, [], []⟩
    (by rfl) (by rfl) rfl rfl rfl rfl rfl rfl (by rfl) (by rfl) (by decide)
    (by rfl) (by rfl) (by decide) (by decide) (by decide) (by decide)).1

/-! ### Character arithmetic facts for the URL normalizers -/

theorem char_toNat_ofNat (n : Nat) (h : n < 0xd800) : (Char.ofNat n).toNat = n := by
  have hv : n < 55296 ∨ 57343 < n ∧ n < 1114112 := Or.inl h
  simp only [Char.ofNat, Char.toNat, Char.ofNatAux]
  rw [dif_pos hv]
  rfl

theorem char_eq_of_toNat_eq {a b : Char} (h : a.toNat = b.toNat) : a = b := by
  have : a.val = b.val := by
    apply UInt32.eq_of_toBitVec_eq
    apply BitVec.eq_of_toNat_eq
    exact h
  exact Char.ext this

theorem lowerChar_toNat (c : Char) :
    (lowerChar c).toNat =
      if 65 ≤ c.toNat ∧ c.toNat ≤ 90 then c.toNat + 32 else c.toNat := by
  unfold lowerChar
  split
  · next h => exact char_toNat_ofNat (c.toNat + 32) (by omega)
  · rfl

theorem lowerChar_idem (c : Char) : lowerChar (lowerChar c) = lowerChar c := by
  apply char_eq_of_toNat_eq
  rw [lowerChar_toNat (lowerChar c), lowerChar_toNat c]
  by_cases h : 65 ≤ c.toNat ∧ c.toNat ≤ 90
  · rw [if_pos h, if_neg (by omega)]
  · rw [if_neg h, if_neg h]

theorem lowerChar_hostChar {c : Char} (h : hostCharB c = true) :
    hostCharB (lowerChar c) = true := by
  by_cases h65 : 65 ≤ c.toNat ∧ c.toNat ≤ 90
  · have htn : (lowerChar c).toNat = c.toNat + 32 := by rw [lowerChar_toNat, if_pos h65]
    have h1 : ¬ lowerChar c = '/' := fun he => by
      have h2 := congrArg Char.toNat he
      rw [htn, show ('/' : Char).toNat = 47 from rfl] at h2
      omega
    have h2 : ¬ lowerChar c = '?' := fun he => by
      have h2 := congrArg Char.toNat he
      rw [htn, show ('?' : Char).toNat = 63 from rfl] at h2
      omega
    have h3 : ¬ lowerChar c = '#' := fun he => by
      have h2 := congrArg Char.toNat he
      rw [htn, show ('#' : Char).toNat = 35 from rfl] at h2
      omega
    unfold hostCharB
    simp only [Bool.and_eq_true, ne_eq, decide_eq_true_eq]
    exact ⟨⟨h1, h2⟩, h3⟩
  · have heq : lowerChar c = c := by rw [lowerChar, if_neg h65]
    rw [heq]
    exact h

/-! ### Idempotence of the storage normalization -/

theorem mem_replaceBadChars {c : Char} {l : List Char} (h : c ∈ replaceBadChars l) :
    badFileCharB c = false := by
  obtain ⟨x, _, hx⟩ := List.mem_map.mp h
  by_cases hb : badFileCharB x = true
  · rw [if_pos hb] at hx
    subst hx
    rfl
  · rw [if_neg hb] at hx
    subst hx
    exact Bool.not_eq_true _ ▸ hb

theorem mem_collapseWsAux {c : Char} :
    ∀ (b : Bool) (l : List Char), c ∈ collapseWsAux b l →
      c = '_' ∨ (c ∈ l ∧ jsWsB c = false) := by
  intro b l
  induction l generalizing b with
  | nil => intro h; cases h
  | cons x xs ih =>
    intro h
    unfold collapseWsAux at h
    by_cases hx : jsWsB x = true
    · rw [if_pos hx] at h
      rcases List.mem_append.mp h with h1 | h2
      · left
        by_cases hb : b = true
        · rw [if_pos hb] at h1; cases h1
        · rw [if_neg hb] at h1
          simpa using h1
      · rcases ih true h2 with h3 | h3
        · exact Or.inl h3
        · exact Or.inr ⟨List.mem_cons_of_mem _ h3.1, h3.2⟩
    · rw [if_neg hx] at h
      rcases List.mem_cons.mp h with h1 | h2
      · subst h1
        exact Or.inr ⟨List.mem_cons_self _ _, Bool.not_eq_true _ ▸ hx⟩
      · rcases ih false h2 with h3 | h3
        · exact Or.inl h3
        · exact Or.inr ⟨List.mem_cons_of_mem _ h3.1, h3.2⟩

theorem mem_cleanFileChars {c : Char} {l : List Char} (h : c ∈ cleanFileChars l) :
    badFileCharB c = false ∧ jsWsB c = false := by
  unfold cleanFileChars collapseWs at h
  rcases mem_collapseWsAux false (replaceBadChars l) h with h1 | h1
  · subst h1
    exact ⟨rfl, rfl⟩
  · exact ⟨mem_replaceBadChars h1.1, h1.2⟩

theorem collapseWsAux_eq_self {l : List Char} (h : ∀ c ∈ l, jsWsB c = false) :
    ∀ b, collapseWsAux b l = l := by
  induction l with
  | nil => intro b; rfl
  | cons x xs ih =>
    intro b
    unfold collapseWsAux
    rw [if_neg (by rw [h x (List.mem_cons_self _ _)]; simp)]
    rw [ih (fun c hc => h c (List.mem_cons_of_mem _ hc))]

theorem replaceBadChars_eq_self {l : List Char} (h : ∀ c ∈ l, badFileCharB c = false) :
    replaceBadChars l = l := by
  unfold replaceBadChars
  rw [List.map_congr_left (fun c hc => by rw [if_neg (by rw [h c hc]; simp)])]
  exact List.map_id' l

theorem cleanFileChars_idem (l : List Char) :
    cleanFileChars (cleanFileChars l) = cleanFileChars l := by
  show collapseWs (replaceBadChars (cleanFileChars l)) = cleanFileChars l
  rw [replaceBadChars_eq_self (fun c hc => (mem_cleanFileChars hc).1)]
  show collapseWsAux false (cleanFileChars l) = cleanFileChars l
  exact collapseWsAux_eq_self (fun c hc => (mem_cleanFileChars hc).2) false

theorem parseURL_some_colon {l : List Char} {r : UrlRec} (h : parseURL l = some r) :
    ':' ∈ l := by
  obtain ⟨hostRaw, pathRaw, hl, _, _, _, _, _⟩ := parseURL_some_decomp l r h
  rw [hl]
  apply List.mem_append.mpr
  left
  cases r.scheme <;> simp [schemeChars]

theorem parseURL_cleanFileChars {l : List Char} : parseURL (cleanFileChars l) = none := by
  cases h : parseURL (cleanFileChars l) with
  | none => rfl
  | some r =>
    have hc := parseURL_some_colon h
    have := (mem_cleanFileChars hc).1
    simp [badFileCharB] at this

/-- Claim C9 counterexample: the comparison normalization is not idempotent —
`http://x//` normalizes to `http://x/` (one trailing slash stripped from the
two-slash path), which normalizes again to `http://x`. -/
theorem C9_counterexample :
    normalizeUrlForComparison (normalizeUrlForComparison ("http://x//".toList)) ≠
      normalizeUrlForComparison ("http://x//".toList) := by
  decide

theorem stripSlash_eq_self {l : List Char} (h : l.getLast? ≠ some '/') :
    stripSlash l = l := by
  unfold stripSlash
  rw [if_neg h]

theorem stripSlash_concat (l : List Char) : stripSlash (l ++ ['/']) = l := by
  unfold stripSlash
  rw [if_pos (List.getLast?_concat l), List.dropLast_concat]

/-- An unparseable string stays unparseable after stripping one trailing
slash. -/
theorem parseURL_stripSlash_none {u : List Char} (h : parseURL u = none) :
    parseURL (stripSlash u) = none := by
  by_cases hl : u.getLast? = some '/'
  · obtain ⟨u', hu⟩ := List.getLast?_eq_some_iff.mp hl
    subst hu
    rw [stripSlash_concat]
    cases h2 : parseURL u' with
    | none => rfl
    | some r =>
      exfalso
      obtain ⟨hostRaw, pathRaw, hdec, _, hne, _, hhc, _⟩ := parseURL_some_decomp u' r h2
      rw [hdec] at h
      rw [List.append_assoc] at h
      unfold parseURL at h
      rw [splitScheme_append] at h
      cases hostRaw with
      | nil => exact hne rfl
      | cons c cs =>
        have hc : hostCharB c = true := hhc c (List.mem_cons_self _ _)
        simp only [List.cons_append, List.takeWhile_cons, hc, if_true] at h
        simp at h
  · rw [stripSlash_eq_self hl]
    exact h

/-- The storage normalization is idempotent on every input. -/
theorem normalizeUrlForStorage_idem (u : List Char) :
    normalizeUrlForStorage (normalizeUrlForStorage u) = normalizeUrlForStorage u := by
  unfold normalizeUrlForStorage
  cases h : parseURL u with
  | some r =>
    simp only [parseURL_cleanFileChars]
    exact cleanFileChars_idem _
  | none =>
    simp only [parseURL_cleanFileChars]
    exact cleanFileChars_idem _

/-! ### Query-parameter round-trip machinery -/

theorem mem_splitOnP_not {α : Type} [DecidableEq α] {p : α → Bool} :
    ∀ (l : List α) (part : List α), part ∈ l.splitOnP p → ∀ c ∈ part, p c = false := by
  intro l
  induction l with
  | nil =>
    intro part hp c hc
    simp [List.splitOnP_nil] at hp
    subst hp
    cases hc
  | cons a xs ih =>
    intro part hp c hc
    rw [List.splitOnP_cons] at hp
    by_cases ha : p a = true
    · rw [if_pos ha] at hp
      rcases List.mem_cons.mp hp with h1 | h1
      · subst h1; cases hc
      · exact ih part h1 c hc
    · rw [if_neg ha] at hp
      cases hxs : xs.splitOnP p with
      | nil => exact absurd hxs (List.splitOnP_ne_nil p xs)
      | cons h0 t =>
        rw [hxs] at hp
        simp only [List.modifyHead] at hp
        rcases List.mem_cons.mp hp with h1 | h1
        · subst h1
          rcases List.mem_cons.mp hc with h2 | h2
          · subst h2
            exact Bool.not_eq_true _ ▸ ha
          · exact ih h0 (hxs ▸ List.mem_cons_self _ _) c h2
        · exact ih part (hxs ▸ List.mem_cons_of_mem _ h1) c hc

theorem mem_splitOn_ne {part : List Char} {body : List Char} {x : Char}
    (h : part ∈ body.splitOn x) : ∀ c ∈ part, c ≠ x := by
  intro c hc he
  have := mem_splitOnP_not body part h c hc
  subst he
  simp at this

theorem intercalate_cons_cons {α : Type} (x : α) (p q : List α) (rest : List (List α)) :
    [x].intercalate (p :: q :: rest) = p ++ x :: [x].intercalate (q :: rest) := by
  simp [List.intercalate, List.intersperse]

theorem intercalate_singleton {α : Type} (x : α) (p : List α) :
    [x].intercalate [p] = p := by
  simp [List.intercalate, List.intersperse]

theorem mem_intercalate_sep {α : Type} {x c : α} :
    ∀ (parts : List (List α)), c ∈ [x].intercalate parts →
      c = x ∨ ∃ part ∈ parts, c ∈ part := by
  intro parts
  induction parts with
  | nil => intro h; simp [List.intercalate] at h
  | cons p rest ih =>
    intro h
    cases rest with
    | nil =>
      rw [intercalate_singleton] at h
      exact Or.inr ⟨p, List.mem_cons_self _ _, h⟩
    | cons q rest2 =>
      rw [intercalate_cons_cons] at h
      rcases List.mem_append.mp h with h1 | h1
      · exact Or.inr ⟨p, List.mem_cons_self _ _, h1⟩
      · rcases List.mem_cons.mp h1 with h2 | h2
        · exact Or.inl h2
        · rcases ih h2 with h3 | ⟨part, hp, hc⟩
          · exact Or.inl h3
          · exact Or.inr ⟨part, List.mem_cons_of_mem _ hp, hc⟩

theorem mem_intercalate_of_mem {α : Type} {x c : α} {part : List α} :
    ∀ (parts : List (List α)), part ∈ parts → c ∈ part → c ∈ [x].intercalate parts := by
  intro parts
  induction parts with
  | nil => intro h; cases h
  | cons p rest ih =>
    intro hp hc
    cases rest with
    | nil =>
      rw [intercalate_singleton]
      rcases List.mem_cons.mp hp with h1 | h1
      · subst h1; exact hc
      · cases h1
    | cons q rest2 =>
      rw [intercalate_cons_cons]
      rcases List.mem_cons.mp hp with h1 | h1
      · subst h1
        exact List.mem_append.mpr (Or.inl hc)
      · exact List.mem_append.mpr (Or.inr (List.mem_cons_of_mem _ (ih h1 hc)))

/-- The parameter lists produced by `parseParams` are structurally clean:
keys contain no `=` and no `&`, values contain no `&`. -/
theorem parseParams_clean {s : List Char} :
    ∀ p ∈ parseParams s, (∀ c ∈ p.1, c ≠ '=') ∧ (∀ c ∈ p.1, c ≠ '&') ∧
      (∀ c ∈ p.2, c ≠ '&') := by
  intro p hp
  unfold parseParams at hp
  obtain ⟨part, hpart, hmap⟩ := List.mem_map.mp hp
  have hpartsplit := (List.mem_filter.mp hpart).1
  have hamp := mem_splitOn_ne hpartsplit
  subst hmap
  refine ⟨fun c hc => ?_, fun c hc => ?_, fun c hc => ?_⟩
  · have := List.mem_takeWhile_imp hc
    simpa using this
  · exact hamp c ((List.takeWhile_sublist _).subset hc)
  · exact hamp c ((List.dropWhile_sublist _).subset ((List.drop_sublist _ _).subset hc))

/-- Characters of parsed parameters come from the search string. -/
theorem parseParams_chars {s : List Char} :
    ∀ p ∈ parseParams s, (∀ c ∈ p.1, c ∈ s) ∧ (∀ c ∈ p.2, c ∈ s) := by
  intro p hp
  unfold parseParams at hp
  obtain ⟨part, hpart, hmap⟩ := List.mem_map.mp hp
  have hpartsplit := (List.mem_filter.mp hpart).1
  have hbody : ∀ c ∈ part, c ∈ searchBody s := by
    intro c hc
    have h1 : c ∈ ['&'].intercalate ((searchBody s).splitOn '&') :=
      mem_intercalate_of_mem _ hpartsplit hc
    rwa [List.intercalate_splitOn] at h1
  have hsub : ∀ c ∈ part, c ∈ s := by
    intro c hc
    have h1 := hbody c hc
    unfold searchBody at h1
    by_cases h0 : s.head? = some '?'
    · rw [if_pos h0] at h1
      exact (List.tail_sublist s).subset h1
    · rwa [if_neg h0] at h1
  subst hmap
  exact ⟨fun c hc => hsub c ((List.takeWhile_sublist _).subset hc),
    fun c hc => hsub c ((List.dropWhile_sublist _).subset ((List.drop_sublist _ _).subset hc))⟩

theorem parseParams_nil : parseParams [] = [] := by rfl

/-- Serialization followed by parsing is the identity on clean parameter
lists. -/
theorem parseParams_serializeParams {ps : List (List Char × List Char)}
    (hk : ∀ p ∈ ps, ∀ c ∈ p.1, c ≠ '=') (hka : ∀ p ∈ ps, ∀ c ∈ p.1, c ≠ '&')
    (hva : ∀ p ∈ ps, ∀ c ∈ p.2, c ≠ '&') :
    parseParams (serializeParams ps) = ps := by
  cases ps with
  | nil => rfl
  | cons p0 rest =>
    set ps := p0 :: rest with hps
    have hfree : ∀ part ∈ ps.map (fun p => p.1 ++ '=' :: p.2), '&' ∉ part := by
      intro part hpart
      obtain ⟨q, hq, hmap⟩ := List.mem_map.mp hpart
      subst hmap
      intro hmem
      rcases List.mem_append.mp hmem with h1 | h1
      · exact hka q hq '&' h1 rfl
      · rcases List.mem_cons.mp h1 with h2 | h2
        · cases h2
        · exact hva q hq '&' h2 rfl
    have hne : ps.map (fun p => p.1 ++ '=' :: p.2) ≠ [] := by simp [hps]
    show parseParams ('?' :: ['&'].intercalate (ps.map fun p => p.1 ++ '=' :: p.2)) = ps
    unfold parseParams searchBody
    rw [if_pos (show ('?' :: ['&'].intercalate (ps.map fun p =>
      p.1 ++ '=' :: p.2)).head? = some '?' from rfl), List.tail_cons]
    rw [List.splitOn_intercalate _ '&' hfree hne]
    rw [List.filter_eq_self.mpr (fun part hpart => by
      obtain ⟨q, _, hmap⟩ := List.mem_map.mp hpart
      subst hmap
      simp)]
    rw [List.map_map]
    refine (List.map_congr_left fun q hq => ?_).trans (List.map_id' ps)
    have hsplit := takeWhile_dropWhile_append (p := fun c => decide (c ≠ '='))
      q.1 ('=' :: q.2) (fun c hc => by simpa using hk q hq c hc) (fun d hd => by
        injection hd with hd
        subst hd
        simp)
    simp only [Function.comp_apply, hsplit.1, hsplit.2, List.drop_one, List.tail_cons]

theorem serializeParams_head {ps : List (List Char × List Char)} {d : Char}
    (h : (serializeParams ps).head? = some d) : d = '?' := by
  cases ps with
  | nil => cases h
  | cons p rest => injection h with h; exact h.symm

theorem mem_serializeParams {c : Char} {ps : List (List Char × List Char)}
    (h : c ∈ serializeParams ps) :
    c = '?' ∨ c = '&' ∨ c = '=' ∨ ∃ p ∈ ps, c ∈ p.1 ∨ c ∈ p.2 := by
  cases ps with
  | nil => cases h
  | cons p0 rest =>
    rcases List.mem_cons.mp h with h1 | h1
    · exact Or.inl h1
    · rcases mem_intercalate_sep _ h1 with h2 | ⟨part, hpart, hc⟩
      · exact Or.inr (Or.inl h2)
      · obtain ⟨q, hq, hmap⟩ := List.mem_map.mp hpart
        subst hmap
        rcases List.mem_append.mp hc with h3 | h3
        · exact Or.inr (Or.inr (Or.inr ⟨q, hq, Or.inl h3⟩))
        · rcases List.mem_cons.mp h3 with h4 | h4
          · exact Or.inr (Or.inr (Or.inl h4))
          · exact Or.inr (Or.inr (Or.inr ⟨q, hq, Or.inr h4⟩))

/-- The concatenation form of `serializeParams`. -/
theorem serializeParams_concat (front : List (List Char × List Char))
    (k v : List Char) :
    serializeParams (front ++ [(k, v)]) =
      (if front = [] then ['?'] else serializeParams front ++ ['&']) ++ (k ++ '=' :: v) := by
  cases front with
  | nil =>
    rw [if_pos rfl]
    show '?' :: ['&'].intercalate [k ++ '=' :: v] = ['?'] ++ (k ++ '=' :: v)
    rw [intercalate_singleton]
    rfl
  | cons f0 rest =>
    rw [if_neg (by simp)]
    show '?' :: ['&'].intercalate (((f0 :: rest) ++ [(k, v)]).map fun p => p.1 ++ '=' :: p.2) =
      ('?' :: ['&'].intercalate ((f0 :: rest).map fun p => p.1 ++ '=' :: p.2)) ++ ['&'] ++
        (k ++ '=' :: v)
    rw [List.map_append]
    have hinter : ∀ (as : List (List Char)) (b : List Char), as ≠ [] →
        ['&'].intercalate (as ++ [b]) = ['&'].intercalate as ++ '&' :: b := by
      intro as
      induction as with
      | nil => intro b hb; exact absurd rfl hb
      | cons a rest2 ih =>
        intro b _
        cases rest2 with
        | nil =>
          simp only [List.cons_append, List.nil_append]
          rw [intercalate_cons_cons, intercalate_singleton, intercalate_singleton]
        | cons a2 rest3 =>
          have ih2 := ih b (by simp)
          simp only [List.cons_append] at ih2
          simp only [List.cons_append]
          rw [intercalate_cons_cons, ih2, intercalate_cons_cons]
          simp
    simp only [List.map_cons, List.map_nil]
    rw [hinter _ _ (by simp)]
    simp [List.append_assoc]

theorem head?_takeWhile {α : Type} {p : α → Bool} {l : List α} {d : α}
    (h : (l.takeWhile p).head? = some d) : l.head? = some d ∧ p d = true := by
  cases l with
  | nil => cases h
  | cons x xs =>
    rw [List.takeWhile_cons] at h
    by_cases hp : p x = true
    · rw [if_pos hp] at h
      injection h with h
      subst h
      exact ⟨rfl, hp⟩
    · rw [if_neg hp] at h
      cases h

theorem head?_dropWhile {α : Type} {p : α → Bool} {l : List α} {d : α}
    (h : (l.dropWhile p).head? = some d) : p d = false := by
  have h2 := List.head?_dropWhile_not p l
  rw [h] at h2
  exact h2

/-- Structural properties of every successful parse result. -/
theorem parseURL_some_props {l : List Char} {r : UrlRec} (h : parseURL l = some r) :
    r.host ≠ [] ∧ (∀ c ∈ r.host, hostCharB c = true) ∧ (∀ c ∈ r.host, lowerChar c = c) ∧
    r.path ≠ [] ∧ (∀ c ∈ r.path, pathCharB c = true) ∧
    (∀ d, r.path.head? = some d → d = '/') ∧
    (∀ d, r.search.head? = some d → d = '?') ∧ (∀ c ∈ r.search, c ≠ '#') ∧
    (∀ d, r.hash.head? = some d → d = '#') := by
  unfold parseURL at h
  cases hsp : splitScheme l with
  | none => rw [hsp] at h; cases h
  | some p =>
    obtain ⟨sch, rest⟩ := p
    rw [hsp] at h
    simp only at h
    by_cases hraw : rest.takeWhile hostCharB = []
    · rw [if_pos hraw] at h; cases h
    · rw [if_neg hraw] at h
      injection h with h
      subst h
      simp only
      refine ⟨?_, ?_, ?_, ?_, ?_, ?_, ?_, ?_, ?_⟩
      · intro hmap
        exact hraw (List.map_eq_nil_iff.mp hmap)
      · intro c hc
        obtain ⟨x, hx, hmap⟩ := List.mem_map.mp hc
        subst hmap
        exact lowerChar_hostChar (List.mem_takeWhile_imp hx)
      · intro c hc
        obtain ⟨x, _, hmap⟩ := List.mem_map.mp hc
        subst hmap
        exact lowerChar_idem x
      · by_cases hp : (rest.dropWhile hostCharB).takeWhile pathCharB = []
        · rw [if_pos hp]; simp
        · rw [if_neg hp]; exact hp
      · intro c hc
        by_cases hp : (rest.dropWhile hostCharB).takeWhile pathCharB = []
        · rw [if_pos hp] at hc
          rcases List.mem_singleton.mp hc with h1
          subst h1
          rfl
        · rw [if_neg hp] at hc
          exact List.mem_takeWhile_imp hc
      · intro d hd
        by_cases hp : (rest.dropWhile hostCharB).takeWhile pathCharB = []
        · rw [if_pos hp] at hd
          injection hd with hd
          exact hd.symm
        · rw [if_neg hp] at hd
          obtain ⟨hhead, hpc⟩ := head?_takeWhile hd
          have hfail := head?_dropWhile hhead
          unfold hostCharB at hfail
          unfold pathCharB at hpc
          simp only [Bool.and_eq_true, ne_eq, decide_eq_true_eq] at hpc
          simp only [Bool.and_eq_true, ne_eq, decide_eq_true_eq, Bool.not_eq_true,
            Bool.and_eq_false_iff, decide_eq_false_iff_not, not_not] at hfail
          rcases hfail with (h1 | h1) | h1
          · exact h1
          · exact absurd h1 hpc.1
          · exact absurd h1 hpc.2
      · intro d hd
        obtain ⟨hhead, hpc⟩ := head?_takeWhile hd
        have hfail := head?_dropWhile hhead
        unfold pathCharB at hfail
        simp only [decide_eq_true_eq] at hpc
        simp only [Bool.and_eq_false_iff, decide_eq_false_iff_not, not_not] at hfail
        rcases hfail with h1 | h1
        · exact h1
        · exact absurd h1 hpc
      · intro c hc
        have := List.mem_takeWhile_imp hc
        simpa using this
      · intro d hd
        have hfail := head?_dropWhile hd
        simpa using hfail

/-- URL strings in comparison-normal form are fixed points of
`normalizeUrlForComparison`. -/
theorem normalizeUrlForComparison_fixed (sch : Scheme) (host path search hash : List Char)
    (hh : host ≠ []) (hhc : ∀ c ∈ host, hostCharB c = true)
    (hhl : ∀ c ∈ host, lowerChar c = c)
    (hpne : path ≠ []) (hpc : ∀ c ∈ path, pathCharB c = true)
    (hph : ∀ d, path.head? = some d → d = '/')
    (hs : ∀ d, search.head? = some d → d = '?') (hsc : ∀ c ∈ search, c ≠ '#')
    (hhash : ∀ d, hash.head? = some d → d = '#')
    (hser : serializeParams (sortParams (parseParams search)) = search)
    (hlast : (schemeChars sch ++ host ++ path ++ search ++ hash).getLast? ≠ some '/') :
    normalizeUrlForComparison (schemeChars sch ++ host ++ path ++ search ++ hash) =
      schemeChars sch ++ host ++ path ++ search ++ hash := by
  have hparse := parseURL_build sch host path search hash hh hhc hpc hph hs hsc hhash
  have hassoc : schemeChars sch ++ host ++ path ++ search ++ hash =
      schemeChars sch ++ (host ++ (path ++ (search ++ hash))) := by
    simp [List.append_assoc]
  rw [hassoc]
  unfold normalizeUrlForComparison
  rw [hparse]
  have hmap : host.map lowerChar = host :=
    (List.map_congr_left hhl).trans (List.map_id' host)
  have hpath : (if path = [] then ['/'] else path) = path := if_neg hpne
  unfold urlToString
  simp only [hmap, hpath, hser]
  rw [← hassoc]
  exact stripSlash_eq_self hlast

theorem sortParams_clean {search : List Char} :
    ∀ p ∈ sortParams (parseParams search),
      (∀ c ∈ p.1, c ≠ '=') ∧ (∀ c ∈ p.1, c ≠ '&') ∧ (∀ c ∈ p.2, c ≠ '&') := fun p hp =>
  parseParams_clean p ((List.perm_insertionSort paramLe _).mem_iff.mp hp)

theorem sortParams_sorted (ps : List (List Char × List Char)) :
    List.Sorted paramLe (sortParams ps) :=
  List.sorted_insertionSort paramLe ps

theorem sortParams_fix {ps : List (List Char × List Char)}
    (h : List.Sorted paramLe ps) : sortParams ps = ps :=
  h.insertionSort_eq

theorem sorted_of_keys_eq {ps qs : List (List Char × List Char)}
    (h : List.Sorted paramLe ps) (hk : ps.map Prod.fst = qs.map Prod.fst) :
    List.Sorted paramLe qs := by
  have h1 : List.Pairwise (fun a b : List Char => lexLeChars a b = true)
      (ps.map Prod.fst) := List.pairwise_map.mpr h
  rw [hk] at h1
  exact (List.pairwise_map (f := Prod.fst)
    (R := fun a b : List Char => lexLeChars a b = true) (l := qs)).mp h1

/-- The properties of a normalized search string needed to re-parse it. -/
theorem normalized_search_props (search : List Char) (hsc : ∀ c ∈ search, c ≠ '#') :
    (∀ d, (serializeParams (sortParams (parseParams search))).head? = some d → d = '?') ∧
    (∀ c ∈ serializeParams (sortParams (parseParams search)), c ≠ '#') ∧
    serializeParams (sortParams (parseParams
      (serializeParams (sortParams (parseParams search))))) =
      serializeParams (sortParams (parseParams search)) := by
  refine ⟨fun d hd => serializeParams_head hd, ?_, ?_⟩
  · intro c hc
    rcases mem_serializeParams hc with h1 | h1 | h1 | ⟨q, hq, hcq⟩
    · subst h1; decide
    · subst h1; decide
    · subst h1; decide
    · have hqmem := (List.perm_insertionSort paramLe _).mem_iff.mp hq
      have hchars := parseParams_chars q hqmem
      rcases hcq with h2 | h2
      · exact hsc c (hchars.1 c h2)
      · exact hsc c (hchars.2 c h2)
  · rw [parseParams_serializeParams (fun p hp => (sortParams_clean p hp).1)
      (fun p hp => (sortParams_clean p hp).2.1) (fun p hp => (sortParams_clean p hp).2.2)]
    rw [sortParams_fix (sortParams_sorted _)]

/-- Dropping the trailing slash of a serialized, sorted, clean parameter list
yields another string in search-normal form. -/
theorem serialize_dropLast (qs : List (List Char × List Char)) (hqs : qs ≠ [])
    (hsorted : List.Sorted paramLe qs)
    (hclean : ∀ p ∈ qs, (∀ c ∈ p.1, c ≠ '=') ∧ (∀ c ∈ p.1, c ≠ '&') ∧ (∀ c ∈ p.2, c ≠ '&'))
    (hlast : (serializeParams qs).getLast? = some '/') :
    serializeParams (sortParams (parseParams ((serializeParams qs).dropLast))) =
      (serializeParams qs).dropLast ∧
    (∀ d, ((serializeParams qs).dropLast).head? = some d → d = '?') := by
  have hqseq : qs.dropLast ++ [qs.getLast hqs] = qs := List.dropLast_append_getLast hqs
  set front := qs.dropLast with hfront
  set kv := qs.getLast hqs with hkv
  have h1 : serializeParams qs =
      (if front = [] then ['?'] else serializeParams front ++ ['&']) ++
        (kv.1 ++ '=' :: kv.2) := by
    conv_lhs => rw [← hqseq]
    have := serializeParams_concat front kv.1 kv.2
    simpa using this
  by_cases hv : kv.2 = []
  · exfalso
    rw [h1, hv] at hlast
    rw [List.getLast?_append] at hlast
    have h2 : (kv.1 ++ ['=']).getLast? = some '=' := List.getLast?_concat _
    rw [h2] at hlast
    simp at hlast
  · obtain ⟨e, he⟩ := Option.isSome_iff_exists.mp (List.getLast?_isSome.mpr hv)
    have heq : e = '/' := by
      rw [h1] at hlast
      rw [List.getLast?_append] at hlast
      have h2 : (kv.1 ++ '=' :: kv.2).getLast? = some e := by
        rw [show ('=' :: kv.2) = ['='] ++ kv.2 from rfl, ← List.append_assoc,
          List.getLast?_append, he]
        rfl
      rw [h2] at hlast
      simp at hlast
      exact hlast
    subst heq
    obtain ⟨v2, hv2⟩ := List.getLast?_eq_some_iff.mp he
    have hs2 : serializeParams qs =
        ((if front = [] then ['?'] else serializeParams front ++ ['&']) ++
          (kv.1 ++ '=' :: v2)) ++ ['/'] := by
      rw [h1, hv2]
      simp [List.append_assoc]
    have hdrop : (serializeParams qs).dropLast =
        (if front = [] then ['?'] else serializeParams front ++ ['&']) ++
          (kv.1 ++ '=' :: v2) := by
      rw [hs2, List.dropLast_concat]
    have hs3 : (serializeParams qs).dropLast = serializeParams (front ++ [(kv.1, v2)]) := by
      rw [hdrop, serializeParams_concat]
    have hcleanq : ∀ p ∈ front ++ [(kv.1, v2)],
        (∀ c ∈ p.1, c ≠ '=') ∧ (∀ c ∈ p.1, c ≠ '&') ∧ (∀ c ∈ p.2, c ≠ '&') := by
      intro p hp
      rcases List.mem_append.mp hp with h2 | h2
      · exact hclean p ((List.dropLast_sublist qs).subset h2)
      · rcases List.mem_singleton.mp h2 with h3
        subst h3
        have hkvmem : kv ∈ qs := List.getLast_mem hqs
        have hcl := hclean kv hkvmem
        refine ⟨hcl.1, hcl.2.1, fun c hc => hcl.2.2 c ?_⟩
        rw [hv2]
        exact List.mem_append.mpr (Or.inl hc)
    have hsorted2 : List.Sorted paramLe (front ++ [(kv.1, v2)]) := by
      refine sorted_of_keys_eq (hqseq ▸ hsorted) ?_
      rw [List.map_append, List.map_append]
      rfl
    constructor
    · rw [hs3]
      rw [parseParams_serializeParams (fun p hp => (hcleanq p hp).1)
        (fun p hp => (hcleanq p hp).2.1) (fun p hp => (hcleanq p hp).2.2)]
      rw [sortParams_fix hsorted2]
    · intro d hd
      rw [hs3] at hd
      exact serializeParams_head hd

theorem getLast?_append_right {α : Type} (l l' : List α) (h : l' ≠ []) :
    (l ++ l').getLast? = l'.getLast? := by
  obtain ⟨e, he⟩ := Option.isSome_iff_exists.mp (List.getLast?_isSome.mpr h)
  rw [List.getLast?_append, he]
  rfl

theorem head?_append_left {α : Type} {l : List α} (l' : List α) {d : α}
    (h : l.head? = some d) : (l ++ l').head? = some d := by
  rw [List.head?_append, h]
  rfl

/-- Comparison normalization is idempotent whenever its result does not end
in a slash. -/
theorem normalizeUrlForComparison_idem (u : List Char)
    (hlast : (normalizeUrlForComparison u).getLast? ≠ some '/') :
    normalizeUrlForComparison (normalizeUrlForComparison u) =
      normalizeUrlForComparison u := by
  cases hp : parseURL u with
  | none =>
    have h1 : normalizeUrlForComparison u = stripSlash u := by
      unfold normalizeUrlForComparison
      rw [hp]
    rw [h1] at hlast ⊢
    unfold normalizeUrlForComparison
    rw [parseURL_stripSlash_none hp]
    exact stripSlash_eq_self hlast
  | some r =>
    obtain ⟨hhne, hhc, hhl, hpne, hpc, hph, hsh, hsc, hhash⟩ := parseURL_some_props hp
    obtain ⟨hshead, hsnc, hsser⟩ := normalized_search_props r.search hsc
    set sN := serializeParams (sortParams (parseParams r.search)) with hsdef
    have hT : normalizeUrlForComparison u =
        stripSlash (schemeChars r.scheme ++ r.host ++ r.path ++ sN ++ r.hash) := by
      unfold normalizeUrlForComparison
      rw [hp]
      rfl
    by_cases hTl :
        (schemeChars r.scheme ++ r.host ++ r.path ++ sN ++ r.hash).getLast? = some '/'
    · have hdrop : normalizeUrlForComparison u =
          (schemeChars r.scheme ++ r.host ++ r.path ++ sN ++ r.hash).dropLast := by
        rw [hT]
        unfold stripSlash
        rw [if_pos hTl]
      rw [hdrop] at hlast ⊢
      by_cases hhashne : r.hash = []
      · by_cases hsne : sN = []
        · -- the trailing slash comes from the path
          have hTeq : schemeChars r.scheme ++ r.host ++ r.path ++ sN ++ r.hash =
              schemeChars r.scheme ++ r.host ++ r.path := by
            rw [hhashne, hsne]
            simp
          rw [hTeq] at hTl hlast ⊢
          have hplast : r.path.getLast? = some '/' := by
            rw [getLast?_append_right _ _ hpne] at hTl
            exact hTl
          obtain ⟨path2, hpath2⟩ := List.getLast?_eq_some_iff.mp hplast
          have hdeq : (schemeChars r.scheme ++ r.host ++ r.path).dropLast =
              schemeChars r.scheme ++ r.host ++ path2 := by
            rw [hpath2, ← List.append_assoc]
            exact List.dropLast_concat
          rw [hdeq] at hlast ⊢
          by_cases hpz : path2 = []
          · -- the path was exactly ['/']
            subst hpz
            have hparse2 := parseURL_build r.scheme r.host [] [] [] hhne hhc
              (fun c hc => by cases hc) (fun d hd => by cases hd) (fun d hd => by cases hd)
              (fun c hc => by cases hc) (fun d hd => by cases hd)
            simp only [List.append_nil] at hparse2 ⊢
            unfold normalizeUrlForComparison
            rw [hparse2]
            unfold urlToString
            simp only
            rw [(List.map_congr_left hhl).trans (List.map_id' r.host)]
            show stripSlash (schemeChars r.scheme ++ r.host ++ ['/'] ++
              serializeParams (sortParams (parseParams [])) ++ []) = _
            rw [show serializeParams (sortParams (parseParams [])) = [] from rfl]
            simp only [List.append_nil]
            rw [show schemeChars r.scheme ++ r.host ++ ['/'] =
              (schemeChars r.scheme ++ r.host) ++ ['/'] by simp [List.append_assoc]]
            exact stripSlash_concat _
          · -- a longer path loses one slash
            have hph2 : ∀ d, path2.head? = some d → d = '/' := by
              intro d hd
              apply hph d
              rw [hpath2]
              exact head?_append_left _ hd
            have hpc2 : ∀ c ∈ path2, pathCharB c = true := by
              intro c hc
              exact hpc c (hpath2 ▸ List.mem_append.mpr (Or.inl hc))
            have hfix := normalizeUrlForComparison_fixed r.scheme r.host path2 [] []
              hhne hhc hhl hpz hpc2 hph2 (fun d hd => by cases hd) (fun c hc => by cases hc)
              (fun d hd => by cases hd) rfl
              (by simpa using hlast)
            simpa using hfix
        · -- the trailing slash comes from the search component
          have hTeq : schemeChars r.scheme ++ r.host ++ r.path ++ sN ++ r.hash =
              schemeChars r.scheme ++ r.host ++ r.path ++ sN := by
            rw [hhashne]
            simp
          rw [hTeq] at hTl hlast ⊢
          have hslast : sN.getLast? = some '/' := by
            rw [getLast?_append_right _ _ hsne] at hTl
            exact hTl
          have hqs_ne : sortParams (parseParams r.search) ≠ [] := by
            intro hz
            rw [hsdef, hz] at hsne
            exact hsne rfl
          obtain ⟨hser2, hhead2⟩ := serialize_dropLast (sortParams (parseParams r.search))
            hqs_ne (sortParams_sorted _) (fun p hp2 => sortParams_clean p hp2)
            (hsdef ▸ hslast)
          rw [← hsdef] at hser2 hhead2
          have hdeq : (schemeChars r.scheme ++ r.host ++ r.path ++ sN).dropLast =
              schemeChars r.scheme ++ r.host ++ r.path ++ sN.dropLast := by
            rw [show schemeChars r.scheme ++ r.host ++ r.path ++ sN =
              (schemeChars r.scheme ++ r.host ++ r.path) ++ sN by simp [List.append_assoc]]
            rw [List.dropLast_append_of_ne_nil _ hsne]
          rw [hdeq] at hlast ⊢
          have hnc2 : ∀ c ∈ sN.dropLast, c ≠ '#' := fun c hc =>
            hsnc c ((List.dropLast_sublist sN).subset hc)
          have hfix := normalizeUrlForComparison_fixed r.scheme r.host r.path sN.dropLast []
            hhne hhc hhl hpne hpc hph hhead2 hnc2 (fun d hd => by cases hd) hser2
            (by simpa using hlast)
          simpa using hfix
      · -- the trailing slash comes from the fragment
        have hhlast : r.hash.getLast? = some '/' := by
          rw [getLast?_append_right _ _ hhashne] at hTl
          exact hTl
        obtain ⟨hash2, hhash2⟩ := List.getLast?_eq_some_iff.mp hhlast
        have hdeq : (schemeChars r.scheme ++ r.host ++ r.path ++ sN ++ r.hash).dropLast =
            schemeChars r.scheme ++ r.host ++ r.path ++ sN ++ hash2 := by
          rw [hhash2, ← List.append_assoc]
          exact List.dropLast_concat
        rw [hdeq] at hlast ⊢
        have hhash3 : ∀ d, hash2.head? = some d → d = '#' := by
          intro d hd
          apply hhash d
          rw [hhash2]
          exact head?_append_left _ hd
        exact normalizeUrlForComparison_fixed r.scheme r.host r.path sN hash2
          hhne hhc hhl hpne hpc hph hshead hsnc hhash3 hsser hlast
    · rw [hT, stripSlash_eq_self hTl] at hlast ⊢
      exact normalizeUrlForComparison_fixed r.scheme r.host r.path sN r.hash
        hhne hhc hhl hpne hpc hph hshead hsnc hhash hsser hlast

/-- Claim C9 (amended): the storage-key normalization is idempotent for every
input string; the navigation-comparison normalization is idempotent for every
input whose normalized form does not end in `/` — the single
`replace(/\/$/,'')` strips only one of possibly several trailing slashes, so
forms ending in a slash can lose one more slash on re-normalization. -/
theorem C9_normalization_idempotent :
    (∀ u : List Char,
      normalizeUrlForStorage (normalizeUrlForStorage u) = normalizeUrlForStorage u) ∧
    (∀ u : List Char, (normalizeUrlForComparison u).getLast? ≠ some '/' →
      normalizeUrlForComparison (normalizeUrlForComparison u) =
        normalizeUrlForComparison u) :=
  ⟨normalizeUrlForStorage_idem, normalizeUrlForComparison_idem⟩

/-- Witness for C9 on concrete URLs (one per normalizer). -/
theorem C9_normalization_idempotent_witness :
    normalizeUrlForStorage (normalizeUrlForStorage ("https://www.Shop.com/A B/".toList)) =
      normalizeUrlForStorage ("https://www.Shop.com/A B/".toList) ∧
    normalizeUrlForComparison
        (normalizeUrlForComparison ("https://x/list/?b=1&a=2".toList)) =
      normalizeUrlForComparison ("https://x/list/?b=1&a=2".toList) :=
  ⟨C9_normalization_idempotent.1 ("https://www.Shop.com/A B/".toList),
   C9_normalization_idempotent.2 ("https://x/list/?b=1&a=2".toList) (by decide)⟩
